import Mathlib

/-
Verification of the UTXO-tracking transaction generator (txgen.py).

Shallow embedding notes:
* Python string transaction ids are format strings with pairwise distinct
  prefixes ("invoice_{i}", "consolidation_{p}_{i}", "treasury_to_checking",
  "vendor_payment_{i}", "treasury_outgoing_{i}", "treasury_incoming_{i}",
  "external_source_{i}", "dummy_large_treasury_utxo"); they are embedded as an
  inductive type `Txid` whose constructors are those injective encodings.
* Addresses are random distinct key-derived strings grouped in per-wallet
  pools (10000 for wallet A, 100 for B and C); they are embedded as indices
  into those pools, plus the synthetic "vendor_{i}" / "external_recipient_{i}"
  strings appearing in payment records.
* All pseudo-random draws (random.randint / random.uniform / random.choice /
  np draws, and the USD→BTC→satoshi conversion of drawn dollar amounts, whose
  arithmetic is treated separately in the `Dec` development below) are
  abstracted as an explicit `Oracle` of draw streams; the Python program
  obtains these streams deterministically from `random.seed(seed)` /
  `np.random.seed(seed)`.  Universally quantifying over the oracle covers
  every seed and date range.
* A Python date is embedded as its proleptic-Gregorian ordinal
  (`date.toordinal()`) together with its month component; sorting the ISO
  strings "YYYY-MM-DD", as the source does, orders dates chronologically,
  i.e. by ordinal.  The generated dates of consolidation/transfer records are
  never read by later generation logic, so their ordinal components are
  irrelevant to every theorem below.
* Python ints are embedded as `Int`, amounts in satoshis.
-/

namespace Txgen

/-- Transaction identifiers: the distinct-prefix format strings of the source
embedded as an inductive type. -/
inductive Txid where
  | invoice (i : Nat)
  | consolidation (p i : Nat)
  | dummyLargeTreasuryUtxo
  | treasuryToChecking
  | vendorPayment (i : Nat)
  | treasuryOutgoing (i : Nat)
  | treasuryIncoming (i : Nat)
  | externalSource (i : Nat)
  deriving DecidableEq, Repr

/-- Addresses: indices into the per-wallet address pools, plus the synthetic
vendor / external-recipient strings. -/
inductive Addr where
  | a (i : Nat)
  | b (i : Nat)
  | c (i : Nat)
  | vendor (i : Nat)
  | externalRecipient (i : Nat)
  deriving DecidableEq, Repr

instance : Inhabited Addr := ⟨Addr.a 0⟩

/-- Wallet tags appearing as the string values of the 'wallet', 'wallet_from'
and 'wallet_to' keys, together with the 'unknown' default used by the
aggregator's dict.get calls. -/
inductive WTag where
  | A
  | B
  | C
  | external
  | unknown
  deriving DecidableEq, Repr

/-- The 'type' field values of generated transactions. -/
inductive TxType where
  | invoice
  | consolidation
  | transfer
  | vendorPayment
  | treasuryOutgoing
  | treasuryIncoming
  deriving DecidableEq, Repr

/-- A calendar date: proleptic-Gregorian ordinal plus month component. -/
structure Date where
  ord : Nat
  month : Nat
  deriving DecidableEq, Repr

instance : Inhabited Date := ⟨⟨0, 1⟩⟩

/-- A tracked unspent output, as stored in self.utxos[wallet]. -/
structure Utxo where
  txid : Txid
  vout : Nat
  amount : Int
  address : Addr
  blockHeight : Nat
  deriving DecidableEq, Repr

instance : Inhabited Utxo := ⟨⟨.dummyLargeTreasuryUtxo, 0, 0, default, 0⟩⟩

/-- The UTXO-shaped records (txid, vout, amount, address) rebuilt from invoice
transactions by the consolidation phase's grouping pass. -/
structure URef where
  txid : Txid
  vout : Nat
  amount : Int
  address : Addr
  deriving DecidableEq, Repr

/-- A transaction record; optional keys of the Python dicts are `Option`s.
The float fields usd_amount / btc_amount are serialization-only (never read
by generation logic) and are omitted. -/
structure Tx where
  txid : Txid
  date : Date
  blockHeight : Nat
  inputs : List (Txid × Nat)
  satoshis : Int
  toAddress : Addr
  wallet : Option WTag
  walletFrom : Option WTag
  walletTo : Option WTag
  type : TxType
  deriving DecidableEq, Repr

/-- The streams of pseudo-random draws consumed by the generator.  The Python
source derives all of them deterministically from the single seed passed to
random.seed / np.random.seed at WalletSimulator.__init__. -/
structure Oracle where
  invDate : Nat → Date
  invSat : Nat → Int
  invAddr : Nat → Nat
  invInc : Nat → Nat
  consAddr : Nat → Nat → Nat
  consInc : Nat → Nat → Nat
  transInc : Nat
  vendDate : Nat → Date
  vendSat : Nat → Int
  vendInc : Nat → Nat
  outDay : Nat → Nat
  outSat : Nat → Int
  outAddr : Nat → Nat
  outInc : Nat → Nat
  incDay : Nat → Nat
  incSat : Nat → Int
  incAddr : Nat → Nat
  incInc : Nat → Nat

/-- random.choice(seq): an arbitrary drawn index k, reduced into the sequence. -/
def choice {α : Type} [Inhabited α] (l : List α) (k : Nat) : α :=
  l.getD (k % l.length) default

/-- Wallet A (invoicing): 10000 generated receiving addresses. -/
def walletAAddresses : List Addr := (List.range 10000).map Addr.a

/-- Wallet B (treasury): 100 generated receiving addresses. -/
def walletBAddresses : List Addr := (List.range 100).map Addr.b

/-- Wallet C (checking): 100 generated receiving addresses. -/
def walletCAddresses : List Addr := (List.range 100).map Addr.c

/-- for i in range(n): acc := step acc i -/
def iter {α : Type} (step : α → Nat → α) (init : α) : Nat → α
  | 0 => init
  | n + 1 => step (iter step init n) n

/-- Insert x into an already le-sorted list, after any elements equal to it. -/
def insertSorted {α : Type} (le : α → α → Bool) (x : α) : List α → List α
  | [] => [x]
  | y :: ys => if le y x then y :: insertSorted le x ys else x :: y :: ys

/-- Python's list.sort / sorted(...): a stable sort by the comparison key.
The stable sort of a list under a total preorder is unique, so this
structurally recursive stable insertion sort produces exactly the list the
source's Timsort produces. -/
def stableSort {α : Type} (le : α → α → Bool) (l : List α) : List α :=
  l.foldl (fun acc x => insertSorted le x acc) []

/-- 1 BTC in satoshis (bitcoin.core.COIN). -/
def COIN : Int := 100000000

/-- The mutable simulator state threaded through the phases: the global
transaction log and the per-wallet UTXO lists. -/
structure SimState where
  transactions : List Tx
  utxosA : List Utxo
  utxosB : List Utxo
  utxosC : List Utxo
  deriving Repr

def initState : SimState := ⟨[], [], [], []⟩

/-! ### Invoice phase (generate_invoice_transactions) -/

/-- One invoice transaction as built inside the generation loop. -/
def mkInvoiceTx (o : Oracle) (i h : Nat) : Tx :=
  { txid := .invoice i
    date := o.invDate i
    blockHeight := h
    inputs := []
    satoshis := o.invSat i
    toAddress := choice walletAAddresses (o.invAddr i)
    wallet := some .A
    walletFrom := none
    walletTo := none
    type := .invoice }

structure InvState where
  txs : List Tx
  utxos : List Utxo
  height : Nat
  deriving Repr

/-- One iteration of the 10000-step invoice loop: build the transaction,
append the freshly minted wallet-A UTXO, advance the block height. -/
def invoiceStep (o : Oracle) (s : InvState) (i : Nat) : InvState :=
  let tx := mkInvoiceTx o i s.height
  { txs := s.txs ++ [tx]
    utxos := s.utxos ++ [⟨.invoice i, 0, o.invSat i, tx.toAddress, s.height⟩]
    height := s.height + o.invInc i }

/-- The raw generation loop, starting from block height 1 and the current
contents of self.utxos['A']. -/
def invoiceRaw (o : Oracle) (us0 : List Utxo) : InvState :=
  iter (invoiceStep o) ⟨[], us0, 1⟩ 10000

/-- Python sort key: the ISO date string, i.e. chronological (ordinal) order. -/
def dateLe (t u : Tx) : Bool := decide (t.date.ord ≤ u.date.ord)

/-- for i, tx in enumerate(txs): tx['block_height'] = k + i. -/
def assignFrom (k : Nat) : List Tx → List Tx
  | [] => []
  | t :: ts => { t with blockHeight := k } :: assignFrom (k + 1) ts

/-- Sort the invoice transactions by date and re-derive block heights 100+i
from sorted order (txs.sort; tx['block_height'] = 100 + i). -/
def assignHeights (txs : List Tx) : List Tx :=
  assignFrom 100 (stableSort dateLe txs)

/-- The inner UTXO fix-up loop: for each re-heighted transaction, update every
wallet-A UTXO with a matching txid to the new block height. -/
def updateUtxoHeights (txs : List Tx) (us : List Utxo) : List Utxo :=
  txs.foldl
    (fun us tx =>
      us.map fun u =>
        if u.txid = tx.txid then { u with blockHeight := tx.blockHeight } else u)
    us

/-- The whole invoice phase acting on the simulator state. -/
def invoiceGen (o : Oracle) (s : SimState) : SimState :=
  let r := invoiceRaw o s.utxosA
  let txs := assignHeights r.txs
  { s with
    transactions := s.transactions ++ txs
    utxosA := updateUtxoHeights txs r.utxos }

/-! ### Consolidation phase (generate_consolidation_transactions) -/

/-- max(utxo['block_height'] for utxo in us); the source's generator max
requires a nonempty list, which every call site guarantees. -/
def maxHeight (us : List Utxo) : Nat := (us.map Utxo.blockHeight).foldl max 0

/-- period = (month - 1) // 2 (0 = Jan-Feb, 1 = Mar-Apr, ...). -/
def periodOf (d : Date) : Nat := (d.month - 1) / 2

/-- Python dict insertion semantics for utxos_by_date: append the record to
the list of an existing period key, else append a new key at the end. -/
def addToGroup (g : List (Nat × List URef)) (p : Nat) (r : URef) :
    List (Nat × List URef) :=
  match g with
  | [] => [(p, [r])]
  | (q, rs) :: rest =>
    if q = p then (q, rs ++ [r]) :: rest else (q, rs) :: addToGroup rest p r

/-- Group the UTXO records of all wallet-A transactions by bi-monthly period
(the loop over self.transactions with tx['wallet'] == 'A'). -/
def groupByPeriod (txs : List Tx) : List (Nat × List URef) :=
  txs.foldl
    (fun g tx =>
      if tx.wallet = some WTag.A then
        addToGroup g (periodOf tx.date) ⟨tx.txid, 0, tx.satoshis, tx.toAddress⟩
      else g)
    []

/-- Chunk sizes of np.array_split: len % n chunks of size len / n + 1
followed by n - len % n chunks of size len / n. -/
def splitSizes (len n : Nat) : List Nat :=
  (List.range n).map fun i => if i < len % n then len / n + 1 else len / n

def chunksOf {α : Type} : List α → List Nat → List (List α)
  | _, [] => []
  | l, sz :: rest => l.take sz :: chunksOf (l.drop sz) rest

/-- np.array_split(l, n). -/
def arraySplit {α : Type} (l : List α) (n : Nat) : List (List α) :=
  chunksOf l (splitSizes l.length n)

/-- 16 consolidations per bi-monthly period, except 17 for the last. -/
def numConsolidations (p : Nat) : Nat := if p < 5 then 16 else 17

/-- End-of-period consolidation date; no later generation logic reads it. -/
def consolidationDate (p : Nat) : Date := ⟨0, p * 2 + 2⟩

structure ConsState where
  txs : List Tx
  uA : List Utxo
  uB : List Utxo
  height : Nat
  deriving Repr

/-- Process one chunk: skip if empty, else emit a consolidation transaction
spending the chunk into a fresh treasury UTXO and remove the spent txids from
wallet A. -/
def consChunk (o : Oracle) (p i : Nat) (st : ConsState) (chunk : List URef) :
    ConsState :=
  if chunk.isEmpty then st
  else
    let total := (chunk.map URef.amount).sum
    let addr := choice walletBAddresses (o.consAddr p i)
    let tx : Tx :=
      { txid := .consolidation p i
        date := consolidationDate p
        blockHeight := st.height
        inputs := chunk.map fun r => (r.txid, r.vout)
        satoshis := total
        toAddress := addr
        wallet := none
        walletFrom := some .A
        walletTo := some .B
        type := .consolidation }
    { txs := st.txs ++ [tx]
      uA := st.uA.filter fun u => chunk.all fun r => decide (r.txid ≠ u.txid)
      uB := st.uB ++ [⟨.consolidation p i, 0, total, addr, st.height⟩]
      height := st.height + o.consInc p i }

/-- Process one period: enumerate its np.array_split chunks. -/
def consPeriod (o : Oracle) (st : ConsState) (pr : Nat × List URef) : ConsState :=
  ((arraySplit pr.2 (numConsolidations pr.1)).enum).foldl
    (fun st ic => consChunk o pr.1 ic.1 st ic.2) st

/-- The whole consolidation phase acting on the simulator state. -/
def consolidationGen (o : Oracle) (s : SimState) : SimState :=
  let h0 := maxHeight s.utxosA + 1
  let st := (groupByPeriod s.transactions).foldl (consPeriod o) ⟨[], s.utxosA, s.utxosB, h0⟩
  { s with
    transactions := s.transactions ++ st.txs
    utxosA := st.uA
    utxosB := st.uB }

/-! ### Transfer + vendor-payment phase (generate_checking_account_transactions) -/

/-- January 15 of the start year; its components are never read later. -/
def transferDate : Date := ⟨0, 1⟩

structure TransferOut where
  tx : Tx
  uB : List Utxo
  uC : List Utxo
  deriving Repr

/-- The 1 BTC treasury→checking transfer: scan self.utxos['B'] in list order
for the first UTXO of amount ≥ 1 BTC; if none, append the flagged dummy 2 BTC
UTXO and spend that.  Mint the 1 BTC checking UTXO, add the change UTXO back
to the spent UTXO's treasury address when positive, then remove all wallet-B
UTXOs sharing the spent txid. -/
def transferStep (uB uC : List Utxo) (h0 : Nat) : TransferOut :=
  let checkingAddress := walletCAddresses.getD 0 default
  let found := uB.find? fun u => decide (COIN ≤ u.amount)
  let tu :=
    found.getD ⟨.dummyLargeTreasuryUtxo, 0, 2 * COIN, walletBAddresses.getD 0 default, h0 - 10⟩
  let uB1 := if found.isSome then uB else uB ++ [tu]
  let tx : Tx :=
    { txid := .treasuryToChecking
      date := transferDate
      blockHeight := h0
      inputs := [(tu.txid, tu.vout)]
      satoshis := COIN
      toAddress := checkingAddress
      wallet := none
      walletFrom := some .B
      walletTo := some .C
      type := .transfer }
  let uC1 := uC ++ [⟨.treasuryToChecking, 0, COIN, checkingAddress, h0⟩]
  let change := tu.amount - COIN
  let uB2 := if 0 < change then uB1 ++ [⟨.treasuryToChecking, 1, change, tu.address, h0⟩] else uB1
  ⟨tx, uB2.filter fun u => decide (u.txid ≠ tu.txid), uC1⟩

structure VendState where
  txs : List Tx
  uC : List Utxo
  height : Nat
  deriving Repr

/-- One vendor payment: record the input (self.utxos['C'][0]['txid'], 0),
subtract the drawn satoshi amount from that UTXO with no balance check, and
replace position 0 of self.utxos['C'] by the residual change UTXO. -/
def vendorStep (o : Oracle) (s : VendState) (i : Nat) : VendState :=
  let sat := o.vendSat i
  let u0 := s.uC.getD 0 default
  let tx : Tx :=
    { txid := .vendorPayment i
      date := o.vendDate i
      blockHeight := s.height
      inputs := [(u0.txid, 0)]
      satoshis := sat
      toAddress := .vendor i
      wallet := none
      walletFrom := some .C
      walletTo := some .external
      type := .vendorPayment }
  let change : Utxo := ⟨.vendorPayment i, 1, u0.amount - sat, walletCAddresses.getD 0 default, s.height⟩
  { txs := s.txs ++ [tx]
    uC := s.uC.set 0 change
    height := s.height + o.vendInc i }

/-- The chain of the first n vendor payments (the source runs n = 20). -/
def vendorLoop (o : Oracle) (uC : List Utxo) (h n : Nat) : VendState :=
  iter (vendorStep o) ⟨[], uC, h⟩ n

/-- The whole transfer + vendor-payment phase acting on the simulator state. -/
def checkingGen (o : Oracle) (s : SimState) : SimState :=
  let h0 := maxHeight s.utxosB + 1
  let tr := transferStep s.utxosB s.utxosC h0
  let v := vendorLoop o tr.uC (h0 + o.transInc) 20
  { s with
    transactions := s.transactions ++ (tr.tx :: v.txs)
    utxosB := tr.uB
    utxosC := v.uC }

/-! ### Special treasury phase (generate_special_treasury_transactions) -/

/-- sorted(self.utxos['B'], key=lambda u: u['amount'], reverse=True):
stable sort by amount, largest first. -/
def sortDesc (us : List Utxo) : List Utxo :=
  stableSort (fun a b => decide (b.amount ≤ a.amount)) us

/-- The greedy accumulation loop: append UTXOs in the given order, summing
amounts, and stop as soon as the running total reaches the target. -/
def selectLoop (target : Int) : List Utxo → List Utxo → Int → List Utxo × Int
  | [], sel, tot => (sel, tot)
  | u :: rest, sel, tot =>
    let sel2 := sel ++ [u]
    let tot2 := tot + u.amount
    if target ≤ tot2 then (sel2, tot2) else selectLoop target rest sel2 tot2

/-- The coin-selection of the special-treasury outgoing loop (§4.3
select_for_amount): largest-first greedy accumulation over the descending
sort of the wallet's live UTXOs. -/
def selectForAmount (uB : List Utxo) (target : Int) : List Utxo × Int :=
  selectLoop target (sortDesc uB) [] 0

/-- Selection combined with the phase's insufficient-funds check
(if total_input < satoshis: warn and continue, skipping the transaction). -/
def selectForAmountChecked (uB : List Utxo) (target : Int) :
    Option (List Utxo × Int) :=
  let st := selectForAmount uB target
  if st.2 < target then none else some st

/-- Outgoing dates are spread at months Feb, Apr, Jun, Aug, Oct (i*2 + 2). -/
def outgoingDate (o : Oracle) (i : Nat) : Date := ⟨o.outDay i, i * 2 + 2⟩

structure OutState where
  txs : List Tx
  uB : List Utxo
  height : Nat
  deriving Repr

/-- One treasury outgoing payment: greedy-select inputs; on insufficient
funds skip everything (no state change); otherwise emit the transaction,
remove the spent txids from wallet B, and add the change UTXO to a randomly
chosen treasury address when positive. -/
def outgoingStep (o : Oracle) (s : OutState) (i : Nat) : OutState :=
  let sat := o.outSat i
  let st := selectForAmount s.uB sat
  if st.2 < sat then s
  else
    let tx : Tx :=
      { txid := .treasuryOutgoing i
        date := outgoingDate o i
        blockHeight := s.height
        inputs := st.1.map fun u => (u.txid, u.vout)
        satoshis := sat
        toAddress := .externalRecipient i
        wallet := none
        walletFrom := some .B
        walletTo := some .external
        type := .treasuryOutgoing }
    let uB1 := s.uB.filter fun u => st.1.all fun v => decide (v.txid ≠ u.txid)
    let change := st.2 - sat
    let uB2 :=
      if 0 < change then
        uB1 ++ [⟨.treasuryOutgoing i, 1, change, choice walletBAddresses (o.outAddr i), s.height⟩]
      else uB1
    ⟨s.txs ++ [tx], uB2, s.height + o.outInc i⟩

/-- Incoming dates: Q1 → Feb (month 2), Q3 → Aug (month 8). -/
def incomingDate (o : Oracle) (i : Nat) : Date :=
  ⟨o.incDay i, (if i = 0 then 1 else 3) * 3 - 1⟩

/-- One external→treasury incoming payment: mint a fresh treasury UTXO; its
single input references the external source. -/
def incomingStep (o : Oracle) (s : OutState) (i : Nat) : OutState :=
  let sat := o.incSat i
  let addr := choice walletBAddresses (o.incAddr i)
  let tx : Tx :=
    { txid := .treasuryIncoming i
      date := incomingDate o i
      blockHeight := s.height
      inputs := [(.externalSource i, 0)]
      satoshis := sat
      toAddress := addr
      wallet := none
      walletFrom := some .external
      walletTo := some .B
      type := .treasuryIncoming }
  ⟨s.txs ++ [tx], s.uB ++ [⟨.treasuryIncoming i, 0, sat, addr, s.height⟩], s.height + o.incInc i⟩

/-- The whole special-treasury phase: 5 outgoing then 2 incoming payments. -/
def specialGen (o : Oracle) (s : SimState) : SimState :=
  let h0 := max (maxHeight s.utxosB) (maxHeight s.utxosC) + 1
  let st1 := iter (outgoingStep o) ⟨[], s.utxosB, h0⟩ 5
  let st2 := iter (incomingStep o) st1 2
  { s with
    transactions := s.transactions ++ st2.txs
    utxosB := st2.uB }

/-! ### Aggregator (save_all_transactions) and main -/

/-- The full pipeline in main()'s fixed phase order. -/
def runAll (o : Oracle) : SimState :=
  specialGen o (checkingGen o (consolidationGen o (invoiceGen o initState)))

def heightLe (t u : Tx) : Bool := decide (t.blockHeight ≤ u.blockHeight)

/-- The final all_transactions log: the whole record list, stably sorted by
block height. -/
def allTransactionsSorted (o : Oracle) : List Tx :=
  stableSort heightLe (runAll o).transactions

/-- The summary.json shape: total count, counts per type, and per-wallet-tag
(incoming, outgoing) counts, both dicts in insertion order. -/
structure Summary where
  total : Nat
  types : List (TxType × Nat)
  wallets : List (WTag × Nat × Nat)
  deriving DecidableEq, Repr

/-- Insert-if-absent-then-increment for the per-type counts. -/
def bumpType : List (TxType × Nat) → TxType → List (TxType × Nat)
  | [], t => [(t, 1)]
  | (u, n) :: rest, t =>
    if u = t then (u, n + 1) :: rest else (u, n) :: bumpType rest t

/-- Insert-if-absent-then-increment for the per-wallet (incoming, outgoing)
counts; `inc = true` bumps incoming, `inc = false` bumps outgoing. -/
def bumpW (inc : Bool) : List (WTag × Nat × Nat) → WTag → List (WTag × Nat × Nat)
  | [], w => [(w, if inc then (1, 0) else (0, 1))]
  | (v, cnts) :: rest, w =>
    if v = w then (v, if inc then (cnts.1 + 1, cnts.2) else (cnts.1, cnts.2 + 1)) :: rest
    else (v, cnts) :: bumpW inc rest w

/-- tx.get('wallet_from', tx.get('wallet', 'unknown')). -/
def resolveFrom (tx : Tx) : WTag :=
  ((tx.walletFrom).orElse fun _ => tx.wallet).getD .unknown

/-- tx.get('wallet_to', 'unknown'). -/
def resolveTo (tx : Tx) : WTag := tx.walletTo.getD .unknown

/-- Per-transaction summary update: bump the type count, the source tag's
outgoing count, then the destination tag's incoming count. -/
def summaryStep (s : Summary) (tx : Tx) : Summary :=
  { total := s.total
    types := bumpType s.types tx.type
    wallets := bumpW true (bumpW false s.wallets (resolveFrom tx)) (resolveTo tx) }

/-- The single summary pass over a transaction log. -/
def summarize (txs : List Tx) : Summary :=
  txs.foldl summaryStep ⟨txs.length, [], []⟩

/-- Look the (incoming, outgoing) counts of a wallet tag up in the summary. -/
def lookupW (s : Summary) (w : WTag) : Option (Nat × Nat) :=
  (s.wallets.find? fun e => decide (e.1 = w)).map (·.2)

def incomingCount (s : Summary) (w : WTag) : Nat := ((lookupW s w).getD (0, 0)).1

def outgoingCount (s : Summary) (w : WTag) : Nat := ((lookupW s w).getD (0, 0)).2

/-! ### Decimal arithmetic of the conversion helpers

The source sets getcontext().prec = 8, so every context operation rounds its
result coefficient to at most 8 significant digits (ROUND_HALF_EVEN, the
context default); in particular each Decimal produced by usd_to_btc's
division carries at most 8 significant digits.  btc_to_satoshis computes
int(btc_amount * COIN): a context multiplication by the int COIN =
100_000_000 followed by int()'s truncation toward zero.  (Emin/Emax of the
default context are astronomically large and never reached here.) -/

/-- A Python Decimal: integer coefficient and base-10 exponent,
value c * 10^e. -/
structure Dec where
  c : Int
  e : Int
  deriving DecidableEq, Repr

/-- Number of significant decimal digits of the coefficient. -/
def decDigits (n : Int) : Nat := (Nat.digits 10 n.natAbs).length

/-- Round c / 10^k to an integer, half to even. -/
def roundHalfEvenNat (c k : Nat) : Nat :=
  if 2 * (c % 10 ^ k) < 10 ^ k then c / 10 ^ k
  else if 10 ^ k < 2 * (c % 10 ^ k) then c / 10 ^ k + 1
  else if (c / 10 ^ k) % 2 = 0 then c / 10 ^ k else c / 10 ^ k + 1

/-- Round a raw result to the context precision: keep at most `prec`
significant digits, shifting the exponent up accordingly. -/
def roundCtx (prec : Nat) (d : Dec) : Dec :=
  let n := decDigits d.c
  if n ≤ prec then d
  else
    let k := n - prec
    let sign : Int := if d.c < 0 then -1 else 1
    ⟨sign * (roundHalfEvenNat d.c.natAbs k : Int), d.e + k⟩

/-- Context multiplication at prec = 8: exact product, then rounding. -/
def decMul (a b : Dec) : Dec := roundCtx 8 ⟨a.c * b.c, a.e + b.e⟩

/-- Decimal(COIN) = Decimal(100000000). -/
def COINdec : Dec := ⟨100000000, 0⟩

/-- int(d): truncate the value of a Decimal toward zero. -/
def decToInt (d : Dec) : Int :=
  if 0 ≤ d.e then d.c * 10 ^ d.e.toNat else Int.tdiv d.c (10 ^ (-d.e).toNat)

/-- btc_to_satoshis(btc_amount) = int(btc_amount * COIN). -/
def btc_to_satoshis (d : Dec) : Int := decToInt (decMul d COINdec)

/-- The rational value of a Decimal. -/
def Dec.val (d : Dec) : ℚ := (d.c : ℚ) * (10 : ℚ) ^ d.e

/-- Truncation of a rational toward zero. -/
def ratTrunc (q : ℚ) : Int := if 0 ≤ q then ⌊q⌋ else ⌈q⌉

/-! ### Auxiliary definitions used by the theorems -/

/-- Sum of the amounts of a UTXO list (the wallet balance over that list). -/
def sumAmt (l : List Utxo) : Int := (l.map Utxo.amount).sum

/-- A concrete draw oracle, used to instantiate universally quantified
theorems at a specific input. -/
def o0 : Oracle :=
  { invDate := fun _ => ⟨0, 1⟩
    invSat := fun _ => 7
    invAddr := fun _ => 0
    invInc := fun _ => 1
    consAddr := fun _ _ => 0
    consInc := fun _ _ => 5
    transInc := 5
    vendDate := fun _ => ⟨0, 1⟩
    vendSat := fun _ => 2
    vendInc := fun _ => 5
    outDay := fun _ => 1
    outSat := fun _ => 3
    outAddr := fun _ => 0
    outInc := fun _ => 5
    incDay := fun _ => 1
    incSat := fun _ => 3
    incAddr := fun _ => 0
    incInc := fun _ => 5 }

/-- The draw oracle exhibiting the missing balance check of the vendor-payment
loop: every vendor payment converts to 6,000,000 satoshis (about $3,540 at
the early-2024 rate of $59,000/BTC, inside the drawn $50-$5000 band). -/
def oC3 : Oracle := { o0 with vendSat := fun _ => 6000000 }

/-- The (txid, output_index) pair of a tracked UTXO. -/
def uPair (u : Utxo) : Txid × Nat := (u.txid, u.vout)

/-- All (txid, output_index) pairs consumed as inputs across a transaction
list, in order. -/
def spentPairs (txs : List Tx) : List (Txid × Nat) := txs.flatMap Tx.inputs

/-- Classification invariant for the treasury wallet during the special
phase's outgoing loop: before iteration i the wallet may hold consolidation
outputs, the dummy bootstrap UTXO, the transfer change (at output index 1),
and change of earlier outgoing payments (at output index 1). -/
def pairOk (i : Nat) : Txid × Nat → Prop
  | (.consolidation _ _, _) => True
  | (.dummyLargeTreasuryUtxo, _) => True
  | (.treasuryToChecking, v) => v = 1
  | (.treasuryOutgoing k, v) => k < i ∧ v = 1
  | _ => False

/-- The incoming count recorded for tag w in a raw wallets table. -/
def inCnt (l : List (WTag × Nat × Nat)) (w : WTag) : Nat :=
  (((l.find? fun e => decide (e.1 = w)).map (·.2)).getD (0, 0)).1

/-- The outgoing count recorded for tag w in a raw wallets table. -/
def outCnt (l : List (WTag × Nat × Nat)) (w : WTag) : Nat :=
  (((l.find? fun e => decide (e.1 = w)).map (·.2)).getD (0, 0)).2

/-- The per-transaction update of the wallets table. -/
def wStep (l : List (WTag × Nat × Nat)) (t : Tx) : List (WTag × Nat × Nat) :=
  bumpW true (bumpW false l (resolveFrom t)) (resolveTo t)

/-! ## Theorems -/

/-! ### Coin selection (claim C2) -/

theorem sumAmt_nil : sumAmt [] = 0 := rfl

theorem sumAmt_cons (u : Utxo) (l : List Utxo) :
    sumAmt (u :: l) = u.amount + sumAmt l := by
  simp [sumAmt]

theorem sumAmt_append (l1 l2 : List Utxo) :
    sumAmt (l1 ++ l2) = sumAmt l1 + sumAmt l2 := by
  simp [sumAmt]

theorem sumAmt_nonneg {l : List Utxo} (h : ∀ u ∈ l, 0 ≤ u.amount) : 0 ≤ sumAmt l := by
  refine List.sum_nonneg ?_
  intro x hx
  rcases List.mem_map.1 hx with ⟨u, hu, rfl⟩
  exact h u hu

theorem sumAmt_take_le {l : List Utxo} (h : ∀ u ∈ l, 0 ≤ u.amount) (m : Nat) :
    sumAmt (l.take m) ≤ sumAmt l := by
  conv_rhs => rw [← List.take_append_drop m l]
  rw [sumAmt_append]
  have h0 : 0 ≤ sumAmt (l.drop m) :=
    sumAmt_nonneg fun u hu => h u (List.mem_of_mem_drop hu)
  omega

/-- Characterization of the greedy accumulation loop: either some nonempty
prefix of the remaining list pushes the running total past the target and the
loop stops at the first such prefix, or the whole list is consumed without
reaching the target. -/
theorem selectLoop_spec (target : Int) (l : List Utxo) :
    ∀ (sel : List Utxo) (tot : Int),
      (∃ m, 1 ≤ m ∧ m ≤ l.length ∧ target ≤ tot + sumAmt (l.take m)
        ∧ (∀ j, 1 ≤ j → j < m → tot + sumAmt (l.take j) < target)
        ∧ selectLoop target l sel tot = (sel ++ l.take m, tot + sumAmt (l.take m)))
      ∨ ((∀ j, 1 ≤ j → j ≤ l.length → tot + sumAmt (l.take j) < target)
        ∧ selectLoop target l sel tot = (sel ++ l, tot + sumAmt l)) := by
  induction l with
  | nil =>
    intro sel tot
    right
    constructor
    · intro j h1 h2
      simp at h2
      omega
    · simp [selectLoop, sumAmt]
  | cons u rest ih =>
    intro sel tot
    by_cases hbr : target ≤ tot + u.amount
    · left
      refine ⟨1, le_refl 1, by simp, ?_, ?_, ?_⟩
      · rw [List.take_succ_cons, List.take_zero, sumAmt_cons, sumAmt_nil]
        omega
      · intro j h1 h2
        omega
      · simp only [selectLoop]
        rw [if_pos hbr, List.take_succ_cons, List.take_zero, sumAmt_cons, sumAmt_nil,
          Prod.mk.injEq]
        exact ⟨rfl, by ring⟩
    · rcases ih (sel ++ [u]) (tot + u.amount) with ⟨m, hm1, hmlen, hge, hmin, heq⟩ | ⟨hall, heq⟩
      · left
        refine ⟨m + 1, by omega, by simp; omega, ?_, ?_, ?_⟩
        · rw [List.take_succ_cons, sumAmt_cons]
          omega
        · intro j h1 h2
          match j, h1 with
          | 1, _ =>
            rw [List.take_succ_cons, List.take_zero, sumAmt_cons, sumAmt_nil]
            omega
          | (j' + 2), _ =>
            have hmin2 := hmin (j' + 1) (by omega) (by omega)
            rw [List.take_succ_cons, sumAmt_cons]
            omega
        · simp only [selectLoop]
          rw [if_neg hbr, heq, List.take_succ_cons, sumAmt_cons, Prod.mk.injEq]
          exact ⟨by simp, by ring⟩
      · right
        constructor
        · intro j h1 h2
          match j, h1 with
          | 1, _ =>
            rw [List.take_succ_cons, List.take_zero, sumAmt_cons, sumAmt_nil]
            omega
          | (j' + 2), _ =>
            have hj2 : j' + 1 ≤ rest.length := by simpa using h2
            have hall2 := hall (j' + 1) (by omega) hj2
            rw [List.take_succ_cons, sumAmt_cons]
            omega
        · simp only [selectLoop]
          rw [if_neg hbr, heq, sumAmt_cons, Prod.mk.injEq]
          exact ⟨by simp, by ring⟩

theorem insertSorted_perm {α : Type} (le : α → α → Bool) (x : α) (l : List α) :
    (insertSorted le x l).Perm (x :: l) := by
  induction l with
  | nil => exact List.Perm.refl _
  | cons y ys ih =>
    by_cases h : le y x = true
    · simp only [insertSorted, if_pos h]
      exact (ih.cons y).trans (List.Perm.swap x y ys)
    · simp only [insertSorted, if_neg h]
      exact List.Perm.refl _

theorem stableSort_perm {α : Type} (le : α → α → Bool) (l : List α) :
    (stableSort le l).Perm l := by
  suffices h : ∀ acc : List α,
      (l.foldl (fun acc x => insertSorted le x acc) acc).Perm (acc ++ l) by
    simpa using h []
  induction l with
  | nil => intro acc; simp
  | cons x xs ih =>
    intro acc
    simp only [List.foldl_cons]
    refine (ih (insertSorted le x acc)).trans ?_
    refine (List.Perm.append_right xs (insertSorted_perm le x acc)).trans ?_
    exact List.perm_middle.symm

theorem insertSorted_pairwise {α : Type} (le : α → α → Bool)
    (htot : ∀ a b, le a b = true ∨ le b a = true)
    (htrans : ∀ a b c, le a b = true → le b c = true → le a c = true)
    (x : α) {l : List α}
    (h : l.Pairwise fun a b => le a b = true) :
    (insertSorted le x l).Pairwise fun a b => le a b = true := by
  induction l with
  | nil => simp [insertSorted]
  | cons y ys ih =>
    rcases List.pairwise_cons.1 h with ⟨hy, hys⟩
    by_cases hle : le y x = true
    · simp only [insertSorted, if_pos hle]
      refine List.pairwise_cons.2 ⟨?_, ih hys⟩
      intro b hb
      rcases List.mem_cons.1 ((insertSorted_perm le x ys).mem_iff.1 hb) with rfl | hb
      · exact hle
      · exact hy b hb
    · simp only [insertSorted, if_neg hle]
      refine List.pairwise_cons.2 ⟨?_, h⟩
      intro b hb
      have hxy : le x y = true := (htot x y).resolve_right fun h2 => hle h2
      rcases List.mem_cons.1 hb with hb | hb
      · subst hb; exact hxy
      · exact htrans x y b hxy (hy b hb)

theorem stableSort_pairwise {α : Type} (le : α → α → Bool)
    (htot : ∀ a b, le a b = true ∨ le b a = true)
    (htrans : ∀ a b c, le a b = true → le b c = true → le a c = true)
    (l : List α) :
    (stableSort le l).Pairwise fun a b => le a b = true := by
  suffices h : ∀ acc : List α, acc.Pairwise (fun a b => le a b = true) →
      (l.foldl (fun acc x => insertSorted le x acc) acc).Pairwise fun a b => le a b = true by
    exact h [] List.Pairwise.nil
  induction l with
  | nil => intro acc hacc; simpa using hacc
  | cons x xs ih =>
    intro acc hacc
    simp only [List.foldl_cons]
    exact ih _ (insertSorted_pairwise le htot htrans x hacc)

theorem sumAmt_sortDesc (uB : List Utxo) : sumAmt (sortDesc uB) = sumAmt uB := by
  unfold sumAmt
  exact List.Perm.sum_eq (List.Perm.map _ (stableSort_perm _ uB))

theorem mem_sortDesc {uB : List Utxo} {u : Utxo} (h : u ∈ sortDesc uB) : u ∈ uB :=
  (stableSort_perm _ uB).mem_iff.1 h

/-- Claim C2: the special-treasury coin selection sorts the wallet's live
UTXOs by amount descending, accumulates them in that order, and returns
exactly the first prefix whose running total reaches the target together with
that accumulated total; when the wallet's whole live balance is below the
target it signals insufficient funds (the transaction is skipped, no value is
fabricated) instead of returning a selection. -/
theorem claim_C2 (uB : List Utxo) (target : Int) (hpos : 0 < target)
    (hnn : ∀ u ∈ uB, 0 ≤ u.amount) :
    (selectForAmountChecked uB target = none ↔ (uB.map Utxo.amount).sum < target)
    ∧ (∀ sel tot, selectForAmountChecked uB target = some (sel, tot) →
        ∃ k, sel = (sortDesc uB).take k
          ∧ tot = sumAmt ((sortDesc uB).take k)
          ∧ target ≤ tot
          ∧ ∀ j, j < k → sumAmt ((sortDesc uB).take j) < target) := by
  have hnnS : ∀ u ∈ sortDesc uB, 0 ≤ u.amount := fun u hu => hnn u (mem_sortDesc hu)
  have hsum : sumAmt (sortDesc uB) = sumAmt uB := sumAmt_sortDesc uB
  have hmapsum : (uB.map Utxo.amount).sum = sumAmt uB := rfl
  rcases selectLoop_spec target (sortDesc uB) [] 0 with ⟨m, hm1, hmlen, hge, hmin, heq⟩ | ⟨hall, heq⟩
  · have hsel : selectForAmount uB target
        = ((sortDesc uB).take m, sumAmt ((sortDesc uB).take m)) := by
      unfold selectForAmount
      rw [heq]
      simp
    have hge2 : target ≤ sumAmt ((sortDesc uB).take m) := by
      omega
    have hne : ¬ (selectForAmount uB target).2 < target := by
      rw [hsel]
      simp only []
      omega
    have hsome : selectForAmountChecked uB target
        = some ((sortDesc uB).take m, sumAmt ((sortDesc uB).take m)) := by
      unfold selectForAmountChecked
      simp only []
      rw [if_neg hne, hsel]
    constructor
    · rw [hsome]
      constructor
      · intro h
        cases h
      · intro hlt
        exfalso
        have hle : sumAmt ((sortDesc uB).take m) ≤ sumAmt (sortDesc uB) :=
          sumAmt_take_le hnnS m
        omega
    · intro sel tot hst
      rw [hsome] at hst
      injection hst with hst
      injection hst with h1 h2
      refine ⟨m, h1.symm, h2.symm, by omega, ?_⟩
      intro j hj
      by_cases hj0 : j = 0
      · subst hj0
        rw [List.take_zero, sumAmt_nil]
        omega
      · have hmin2 := hmin j (by omega) hj
        omega
  · have hsel : selectForAmount uB target = (sortDesc uB, sumAmt (sortDesc uB)) := by
      unfold selectForAmount
      rw [heq]
      simp
    by_cases hlen : (sortDesc uB).length = 0
    · have he : sortDesc uB = [] := List.length_eq_zero.1 hlen
      have hfin : sumAmt (sortDesc uB) = 0 := by rw [he]; rfl
      have hlt0 : (selectForAmount uB target).2 < target := by
        rw [hsel]
        simp only []
        omega
      have hnone : selectForAmountChecked uB target = none := by
        unfold selectForAmountChecked
        simp only []
        rw [if_pos hlt0]
      constructor
      · rw [hnone]
        exact ⟨fun _ => by omega, fun _ => rfl⟩
      · intro sel tot hst
        rw [hnone] at hst
        cases hst
    · have hfin : sumAmt (sortDesc uB) < target := by
        have hl := hall (sortDesc uB).length (by omega) (le_refl _)
        rw [List.take_length] at hl
        omega
      have hlt0 : (selectForAmount uB target).2 < target := by
        rw [hsel]
        simp only []
        omega
      have hnone : selectForAmountChecked uB target = none := by
        unfold selectForAmountChecked
        simp only []
        rw [if_pos hlt0]
      constructor
      · rw [hnone]
        exact ⟨fun _ => by omega, fun _ => rfl⟩
      · intro sel tot hst
        rw [hnone] at hst
        cases hst

/-- Witness for claim C2 at a concrete wallet state and target. -/
theorem claim_C2_witness :
    ((0 : Int) < 5 ∧ ∀ u ∈ ([⟨.consolidation 0 0, 0, 3, Addr.b 0, 7⟩] : List Utxo), 0 ≤ u.amount)
    ∧ ((selectForAmountChecked [⟨.consolidation 0 0, 0, 3, Addr.b 0, 7⟩] 5 = none
        ↔ (([⟨.consolidation 0 0, 0, 3, Addr.b 0, 7⟩] : List Utxo).map Utxo.amount).sum < 5)
      ∧ (∀ sel tot,
          selectForAmountChecked [⟨.consolidation 0 0, 0, 3, Addr.b 0, 7⟩] 5 = some (sel, tot) →
          ∃ k, sel = (sortDesc [⟨.consolidation 0 0, 0, 3, Addr.b 0, 7⟩]).take k
            ∧ tot = sumAmt ((sortDesc [⟨.consolidation 0 0, 0, 3, Addr.b 0, 7⟩]).take k)
            ∧ 5 ≤ tot
            ∧ ∀ j, j < k → sumAmt ((sortDesc [⟨.consolidation 0 0, 0, 3, Addr.b 0, 7⟩]).take j) < 5)) :=
  ⟨⟨by decide, by decide⟩, claim_C2 _ 5 (by decide) (by decide)⟩

/-! ### Vendor payment chain (claims C6 and C3) -/

/-- One vendor-payment step on a state whose checking wallet holds exactly
one UTXO, fully evaluated. -/
theorem vendorStep_singleton (o : Oracle) (txs : List Tx) (u2 : Utxo) (h i : Nat) :
    vendorStep o ⟨txs, [u2], h⟩ i =
      ⟨txs ++ [{ txid := .vendorPayment i, date := o.vendDate i, blockHeight := h,
                 inputs := [(u2.txid, 0)], satoshis := o.vendSat i, toAddress := .vendor i,
                 wallet := none, walletFrom := some .C, walletTo := some .external,
                 type := .vendorPayment }],
        [⟨.vendorPayment i, 1, u2.amount - o.vendSat i, walletCAddresses.getD 0 default, h⟩],
        h + o.vendInc i⟩ := rfl

/-- Structure of the vendor-payment loop run from a single checking UTXO:
after n payments, wallet C still holds exactly one UTXO; its txid is the last
payment's (or the initial one's); its amount is the initial amount minus the
sum of the drawn payment amounts; and the recorded inputs chain through the
txids, all at output index 0. -/
theorem vendorLoop_spec (o : Oracle) (u : Utxo) (h : Nat) :
    ∀ n, ∃ u2 : Utxo,
      (vendorLoop o [u] h n).uC = [u2]
      ∧ u2.txid = (if n = 0 then u.txid else .vendorPayment (n - 1))
      ∧ u2.amount = u.amount - ((List.range n).map o.vendSat).sum
      ∧ (vendorLoop o [u] h n).txs.map Tx.inputs
          = (List.range n).map
              (fun i => [((if i = 0 then u.txid else .vendorPayment (i - 1)), 0)])
      ∧ (vendorLoop o [u] h n).txs.map Tx.txid = (List.range n).map Txid.vendorPayment := by
  intro n
  induction n with
  | zero =>
    exact ⟨u, rfl, rfl, by simp, by simp [vendorLoop, iter], by simp [vendorLoop, iter]⟩
  | succ n ih =>
    rcases ih with ⟨u2, huC, htx, hamt, hinp, htxid⟩
    have hsplit : vendorLoop o [u] h n
        = ⟨(vendorLoop o [u] h n).txs, [u2], (vendorLoop o [u] h n).height⟩ := by
      rw [← huC]
    have hstep : vendorLoop o [u] h (n + 1) = vendorStep o (vendorLoop o [u] h n) n := rfl
    rw [hstep, hsplit, vendorStep_singleton]
    refine ⟨⟨.vendorPayment n, 1, u2.amount - o.vendSat n, walletCAddresses.getD 0 default,
      (vendorLoop o [u] h n).height⟩, rfl, rfl, ?_, ?_, ?_⟩
    · simp only [hamt, List.range_succ, List.map_append, List.sum_append, List.map_cons,
        List.sum_cons, List.map_nil, List.sum_nil]
      ring
    · simp only [List.range_succ, List.map_append, List.map_cons, List.map_nil]
      rw [hinp]
      congr 2
      rw [htx]
    · simp only [List.range_succ, List.map_append, List.map_cons, List.map_nil]
      rw [htxid]

/-- Claim C6: after the first N ≤ 20 vendor payments, the checking wallet
holds exactly one tracked UTXO, and its amount equals the initial 1 BTC
(100,000,000 satoshi) transfer amount minus the sum of the first N drawn
vendor-payment satoshi amounts (each already truncated to an integer by the
subunit conversion), as an exact integer identity. -/
theorem claim_C6 (o : Oracle) (h0 h1 : Nat) (n : Nat) (_hn : n ≤ 20) :
    (vendorLoop o [⟨.treasuryToChecking, 0, COIN, walletCAddresses.getD 0 default, h0⟩] h1 n).uC.length = 1
    ∧ ((vendorLoop o [⟨.treasuryToChecking, 0, COIN, walletCAddresses.getD 0 default, h0⟩] h1 n).uC.getD 0 default).amount
        = COIN - ((List.range n).map o.vendSat).sum := by
  rcases vendorLoop_spec o ⟨.treasuryToChecking, 0, COIN, walletCAddresses.getD 0 default, h0⟩ h1 n
    with ⟨u2, huC, htx, hamt, _, _⟩
  rw [huC]
  exact ⟨rfl, by simpa using hamt⟩

/-- Witness for claim C6 at the full 20-payment chain under a concrete oracle. -/
theorem claim_C6_witness :
    (20 ≤ 20)
    ∧ (vendorLoop o0 [⟨.treasuryToChecking, 0, COIN, walletCAddresses.getD 0 default, 7⟩] 12 20).uC.length = 1
    ∧ ((vendorLoop o0 [⟨.treasuryToChecking, 0, COIN, walletCAddresses.getD 0 default, 7⟩] 12 20).uC.getD 0 default).amount
        = COIN - ((List.range 20).map o0.vendSat).sum :=
  ⟨by decide, claim_C6 o0 7 12 20 (by decide)⟩

/-- Claim C3 fails on the code: the vendor-payment loop performs no balance
check before mutating the checking UTXO.  Twenty in-band payments of
6,000,000 satoshis each (about $3,540 at the $59,000/BTC base rate) drive
the checking wallet's UTXO amount to -20,000,000 satoshis. -/
theorem claim_C3_bug :
    ((vendorLoop oC3 [⟨.treasuryToChecking, 0, COIN, walletCAddresses.getD 0 default, 500⟩] 505 20).uC.getD 0 default).amount
      = -20000000
    ∧ ((vendorLoop oC3 [⟨.treasuryToChecking, 0, COIN, walletCAddresses.getD 0 default, 500⟩] 505 20).uC.getD 0 default).amount < 0 := by
  constructor
  · decide
  · decide

/-! ### Treasury-to-checking transfer (claim C5) -/

/-- When some wallet-B UTXO of amount at least 1 BTC exists, the transfer
spends exactly the first such UTXO in ledger order. -/
theorem transferStep_found (uB uC : List Utxo) (h0 : Nat) (tu : Utxo)
    (hfind : uB.find? (fun u => decide (COIN ≤ u.amount)) = some tu) :
    transferStep uB uC h0 =
      ⟨{ txid := .treasuryToChecking, date := transferDate, blockHeight := h0,
         inputs := [(tu.txid, tu.vout)], satoshis := COIN,
         toAddress := walletCAddresses.getD 0 default, wallet := none,
         walletFrom := some .B, walletTo := some .C, type := .transfer },
       ((if 0 < tu.amount - COIN
          then uB ++ [⟨.treasuryToChecking, 1, tu.amount - COIN, tu.address, h0⟩]
          else uB).filter fun u => decide (u.txid ≠ tu.txid)),
       uC ++ [⟨.treasuryToChecking, 0, COIN, walletCAddresses.getD 0 default, h0⟩]⟩ := by
  unfold transferStep
  rw [hfind]
  rfl

/-- When no single wallet-B UTXO reaches 1 BTC, the transfer fabricates and
spends the flagged dummy 2 BTC UTXO. -/
theorem transferStep_notfound (uB uC : List Utxo) (h0 : Nat)
    (hfind : uB.find? (fun u => decide (COIN ≤ u.amount)) = none) :
    transferStep uB uC h0 =
      ⟨{ txid := .treasuryToChecking, date := transferDate, blockHeight := h0,
         inputs := [(.dummyLargeTreasuryUtxo, 0)], satoshis := COIN,
         toAddress := walletCAddresses.getD 0 default, wallet := none,
         walletFrom := some .B, walletTo := some .C, type := .transfer },
       ((if 0 < 2 * COIN - COIN
          then (uB ++ [(⟨.dummyLargeTreasuryUtxo, 0, 2 * COIN, walletBAddresses.getD 0 default, h0 - 10⟩ : Utxo)])
            ++ [(⟨.treasuryToChecking, 1, 2 * COIN - COIN, walletBAddresses.getD 0 default, h0⟩ : Utxo)]
          else uB ++ [(⟨.dummyLargeTreasuryUtxo, 0, 2 * COIN, walletBAddresses.getD 0 default, h0 - 10⟩ : Utxo)]).filter
         fun u => decide (u.txid ≠ Txid.dummyLargeTreasuryUtxo)),
       uC ++ [⟨.treasuryToChecking, 0, COIN, walletCAddresses.getD 0 default, h0⟩]⟩ := by
  unfold transferStep
  rw [hfind]
  rfl

/-- Claim C5 fails on the code: with two live treasury UTXOs of 1.2 BTC and
1.5 BTC (in that ledger order), the transfer spends the 1.2 BTC UTXO — the
first single UTXO of amount ≥ 1 BTC in list order — whereas the §4.3 greedy
coin selection (sort descending, accumulate until ≥ 1 BTC) selects the
1.5 BTC UTXO. -/
theorem claim_C5_counterexample :
    (transferStep
        ([⟨.consolidation 0 0, 0, 120000000, .b 0, 5⟩,
          ⟨.consolidation 0 1, 0, 150000000, .b 1, 6⟩] : List Utxo)
        [] 10).tx.inputs
      = [(.consolidation 0 0, 0)]
    ∧ ((selectForAmount
        ([⟨.consolidation 0 0, 0, 120000000, .b 0, 5⟩,
          ⟨.consolidation 0 1, 0, 150000000, .b 1, 6⟩] : List Utxo)
        COIN).1.map fun u => (u.txid, u.vout))
      = [(.consolidation 0 1, 0)]
    ∧ ([((Txid.consolidation 0 0 : Txid), (0 : Nat))] : List (Txid × Nat))
        ≠ [((Txid.consolidation 0 1 : Txid), (0 : Nat))] := by
  refine ⟨?_, ?_, by decide⟩
  · rfl
  · rfl

/-- Filtering for the transfer txid over UTXOs that do not carry it yields
nothing. -/
theorem filter_t2c_of_none {l : List Utxo}
    (h : ∀ u ∈ l, u.txid ≠ Txid.treasuryToChecking) :
    (l.filter fun u => decide (u.txid = Txid.treasuryToChecking)) = [] := by
  induction l with
  | nil => rfl
  | cons x xs ih =>
    have hx : x.txid ≠ .treasuryToChecking := h x (by simp)
    simp only [List.filter_cons]
    rw [if_neg (by simpa using hx)]
    exact ih fun u hu => h u (by simp [hu])

/-- Claim C5, amended to the code's behavior: the transfer does not run the
§4.3 greedy selection; it spends the first single treasury UTXO in ledger
order whose amount reaches 1 BTC (appending and spending the flagged dummy
2 BTC UTXO when none exists), and it adds exactly one change UTXO, of amount
input minus 1 BTC and at the spent UTXO's treasury address, exactly when that
difference is positive. -/
theorem claim_C5_amended (uB uC : List Utxo) (h0 : Nat)
    (hnew : ∀ u ∈ uB, u.txid ≠ Txid.treasuryToChecking) :
    (∀ tu, uB.find? (fun u => decide (COIN ≤ u.amount)) = some tu →
       (transferStep uB uC h0).tx.inputs = [(tu.txid, tu.vout)]
       ∧ (((transferStep uB uC h0).uB.filter
            fun u => decide (u.txid = Txid.treasuryToChecking)).map Utxo.amount
          = if 0 < tu.amount - COIN then [tu.amount - COIN] else [])
       ∧ (((transferStep uB uC h0).uB.filter
            fun u => decide (u.txid = Txid.treasuryToChecking)).map Utxo.address
          = if 0 < tu.amount - COIN then [tu.address] else []))
    ∧ (uB.find? (fun u => decide (COIN ≤ u.amount)) = none →
       (transferStep uB uC h0).tx.inputs = [(Txid.dummyLargeTreasuryUtxo, 0)]
       ∧ ((transferStep uB uC h0).uB.filter
            fun u => decide (u.txid = Txid.treasuryToChecking)).map Utxo.amount
          = [2 * COIN - COIN]) := by
  constructor
  · intro tu hf
    have htu_mem : tu ∈ uB := List.mem_of_find?_eq_some hf
    have htu : tu.txid ≠ Txid.treasuryToChecking := hnew tu htu_mem
    rw [transferStep_found uB uC h0 tu hf]
    have hBnil : ((uB.filter fun u => decide (u.txid ≠ tu.txid)).filter
        fun u => decide (u.txid = Txid.treasuryToChecking)) = [] := by
      refine filter_t2c_of_none ?_
      intro u hu
      exact hnew u (List.mem_filter.1 hu).1
    by_cases hc : 0 < tu.amount - COIN
    · refine ⟨rfl, ?_, ?_⟩
      all_goals
        simp only [if_pos hc, List.filter_append, hBnil]
        rw [List.filter_cons, if_pos (by simpa using (Ne.symm htu)), List.filter_nil,
          List.filter_cons]
        rfl
    · refine ⟨rfl, ?_, ?_⟩
      all_goals
        simp only [if_neg hc, hBnil]
        rfl
  · intro hf
    rw [transferStep_notfound uB uC h0 hf]
    have h2 : (0 : Int) < 2 * COIN - COIN := by norm_num [COIN]
    refine ⟨rfl, ?_⟩
    simp only [if_pos h2, List.filter_append]
    have hBnil2 : ((uB.filter fun u => decide (u.txid ≠ Txid.dummyLargeTreasuryUtxo)).filter
        fun u => decide (u.txid = Txid.treasuryToChecking)) = [] := by
      refine filter_t2c_of_none ?_
      intro u hu
      exact hnew u (List.mem_filter.1 hu).1
    rw [List.filter_cons, if_neg (by simp), List.filter_nil, List.filter_cons,
      if_pos (by simp), List.filter_nil, hBnil2]
    rfl

/-- Witness for the amended claim C5 at a concrete wallet state. -/
theorem claim_C5_amended_witness :
    (∀ u ∈ ([⟨.consolidation 0 0, 0, 120000000, .b 0, 5⟩,
             ⟨.consolidation 0 1, 0, 150000000, .b 1, 6⟩] : List Utxo),
        u.txid ≠ Txid.treasuryToChecking)
    ∧ ((∀ tu,
          ([⟨.consolidation 0 0, 0, 120000000, .b 0, 5⟩,
            ⟨.consolidation 0 1, 0, 150000000, .b 1, 6⟩] : List Utxo).find?
            (fun u => decide (COIN ≤ u.amount)) = some tu →
          (transferStep
            ([⟨.consolidation 0 0, 0, 120000000, .b 0, 5⟩,
              ⟨.consolidation 0 1, 0, 150000000, .b 1, 6⟩] : List Utxo) [] 10).tx.inputs
            = [(tu.txid, tu.vout)]
          ∧ (((transferStep
                ([⟨.consolidation 0 0, 0, 120000000, .b 0, 5⟩,
                  ⟨.consolidation 0 1, 0, 150000000, .b 1, 6⟩] : List Utxo) [] 10).uB.filter
                fun u => decide (u.txid = Txid.treasuryToChecking)).map Utxo.amount
              = if 0 < tu.amount - COIN then [tu.amount - COIN] else [])
          ∧ (((transferStep
                ([⟨.consolidation 0 0, 0, 120000000, .b 0, 5⟩,
                  ⟨.consolidation 0 1, 0, 150000000, .b 1, 6⟩] : List Utxo) [] 10).uB.filter
                fun u => decide (u.txid = Txid.treasuryToChecking)).map Utxo.address
              = if 0 < tu.amount - COIN then [tu.address] else []))
      ∧ (([⟨.consolidation 0 0, 0, 120000000, .b 0, 5⟩,
           ⟨.consolidation 0 1, 0, 150000000, .b 1, 6⟩] : List Utxo).find?
            (fun u => decide (COIN ≤ u.amount)) = none →
          (transferStep
            ([⟨.consolidation 0 0, 0, 120000000, .b 0, 5⟩,
              ⟨.consolidation 0 1, 0, 150000000, .b 1, 6⟩] : List Utxo) [] 10).tx.inputs
            = [(Txid.dummyLargeTreasuryUtxo, 0)]
          ∧ ((transferStep
                ([⟨.consolidation 0 0, 0, 120000000, .b 0, 5⟩,
                  ⟨.consolidation 0 1, 0, 150000000, .b 1, 6⟩] : List Utxo) [] 10).uB.filter
                fun u => decide (u.txid = Txid.treasuryToChecking)).map Utxo.amount
              = [2 * COIN - COIN])) :=
  ⟨by decide, claim_C5_amended _ [] 10 (by decide)⟩

/-! ### Aggregator wallet buckets (claim C7) -/

theorem inCnt_bumpW_false (l : List (WTag × Nat × Nat)) (v w : WTag) :
    inCnt (bumpW false l v) w = inCnt l w := by
  induction l with
  | nil =>
    by_cases h : v = w
    · subst h
      simp [bumpW, inCnt, List.find?]
    · simp [bumpW, inCnt, List.find?, h]
  | cons e rest ih =>
    by_cases h : e.1 = v
    · simp only [bumpW, if_pos h]
      by_cases h2 : e.1 = w
      · simp [inCnt, List.find?, h2]
      · simp [inCnt, List.find?, h2]
    · simp only [bumpW, if_neg h]
      by_cases h2 : e.1 = w
      · simp [inCnt, List.find?, h2]
      · simp only [inCnt, List.find?]
        rw [show (decide (e.1 = w)) = false by simpa using h2]
        exact ih

theorem outCnt_bumpW_true (l : List (WTag × Nat × Nat)) (v w : WTag) :
    outCnt (bumpW true l v) w = outCnt l w := by
  induction l with
  | nil =>
    by_cases h : v = w
    · subst h
      simp [bumpW, outCnt, List.find?]
    · simp [bumpW, outCnt, List.find?, h]
  | cons e rest ih =>
    by_cases h : e.1 = v
    · simp only [bumpW, if_pos h]
      by_cases h2 : e.1 = w
      · simp [outCnt, List.find?, h2]
      · simp [outCnt, List.find?, h2]
    · simp only [bumpW, if_neg h]
      by_cases h2 : e.1 = w
      · simp [outCnt, List.find?, h2]
      · simp only [outCnt, List.find?]
        rw [show (decide (e.1 = w)) = false by simpa using h2]
        exact ih

theorem inCnt_bumpW_true (l : List (WTag × Nat × Nat)) (v w : WTag) :
    inCnt (bumpW true l v) w = inCnt l w + (if v = w then 1 else 0) := by
  induction l with
  | nil =>
    by_cases h : v = w
    · subst h
      simp [bumpW, inCnt, List.find?]
    · simp only [bumpW, inCnt, List.find?, if_neg h]
      rw [show (decide (v = w)) = false by simpa using h]
      rfl
  | cons e rest ih =>
    by_cases h : e.1 = v
    · simp only [bumpW, if_pos h]
      by_cases h2 : e.1 = w
      · have hvw : v = w := by rw [← h, h2]
        simp [inCnt, List.find?, h2, hvw]
      · have hvw : ¬ v = w := by rw [← h]; exact h2
        simp [inCnt, List.find?, h2, hvw]
    · simp only [bumpW, if_neg h]
      by_cases h2 : e.1 = w
      · have hvw : ¬ v = w := fun hvw => h (by rw [h2, hvw])
        simp [inCnt, List.find?, h2, hvw]
      · simp only [inCnt, List.find?] at ih ⊢
        rw [show (decide (e.1 = w)) = false by simpa using h2]
        exact ih

theorem outCnt_bumpW_false (l : List (WTag × Nat × Nat)) (v w : WTag) :
    outCnt (bumpW false l v) w = outCnt l w + (if v = w then 1 else 0) := by
  induction l with
  | nil =>
    by_cases h : v = w
    · subst h
      simp [bumpW, outCnt, List.find?]
    · simp only [bumpW, outCnt, List.find?, if_neg h]
      rw [show (decide (v = w)) = false by simpa using h]
      rfl
  | cons e rest ih =>
    by_cases h : e.1 = v
    · simp only [bumpW, if_pos h]
      by_cases h2 : e.1 = w
      · have hvw : v = w := by rw [← h, h2]
        simp [outCnt, List.find?, h2, hvw]
      · have hvw : ¬ v = w := by rw [← h]; exact h2
        simp [outCnt, List.find?, h2, hvw]
    · simp only [bumpW, if_neg h]
      by_cases h2 : e.1 = w
      · have hvw : ¬ v = w := fun hvw => h (by rw [h2, hvw])
        simp [outCnt, List.find?, h2, hvw]
      · simp only [outCnt, List.find?] at ih ⊢
        rw [show (decide (e.1 = w)) = false by simpa using h2]
        exact ih

theorem summarize_wallets (txs : List Tx) :
    ∀ s : Summary, (txs.foldl summaryStep s).wallets = txs.foldl wStep s.wallets := by
  induction txs with
  | nil => intro s; rfl
  | cons t ts ih =>
    intro s
    simp only [List.foldl_cons]
    exact ih (summaryStep s t)

theorem inCnt_foldl (txs : List Tx) :
    ∀ (l : List (WTag × Nat × Nat)) (w : WTag),
      inCnt (txs.foldl wStep l) w
        = inCnt l w + txs.countP fun t => decide (resolveTo t = w) := by
  induction txs with
  | nil => intro l w; simp
  | cons t ts ih =>
    intro l w
    simp only [List.foldl_cons]
    rw [ih, List.countP_cons]
    have hstep : inCnt (wStep l t) w = inCnt l w + (if resolveTo t = w then 1 else 0) := by
      unfold wStep
      rw [inCnt_bumpW_true, inCnt_bumpW_false]
    rw [hstep]
    by_cases h : resolveTo t = w
    · rw [if_pos h, if_pos (by simpa using h)]
      omega
    · rw [if_neg h, if_neg (by simpa using h)]
      omega

theorem outCnt_foldl (txs : List Tx) :
    ∀ (l : List (WTag × Nat × Nat)) (w : WTag),
      outCnt (txs.foldl wStep l) w
        = outCnt l w + txs.countP fun t => decide (resolveFrom t = w) := by
  induction txs with
  | nil => intro l w; simp
  | cons t ts ih =>
    intro l w
    simp only [List.foldl_cons]
    rw [ih, List.countP_cons]
    have hstep : outCnt (wStep l t) w = outCnt l w + (if resolveFrom t = w then 1 else 0) := by
      unfold wStep
      rw [outCnt_bumpW_true, outCnt_bumpW_false]
    rw [hstep]
    by_cases h : resolveFrom t = w
    · rw [if_pos h, if_pos (by simpa using h)]
      omega
    · rw [if_neg h, if_neg (by simpa using h)]
      omega

/-- Claim C7 fails on the code: an invoice transaction carries no
'wallet_to' key, and the aggregator's dict.get default routes that side into
a bucket keyed 'unknown' — the 'external' bucket records nothing for it. -/
theorem claim_C7_counterexample :
    (mkInvoiceTx o0 0 1).walletTo = none
    ∧ lookupW (summarize [mkInvoiceTx o0 0 1]) WTag.external = none
    ∧ lookupW (summarize [mkInvoiceTx o0 0 1]) WTag.unknown = some (1, 0) :=
  ⟨rfl, rfl, rfl⟩

/-- Claim C7, amended to the code's behavior: the summary pass is total
(no crash) and counts every transaction side under the bucket obtained by
the dict.get chains — the recorded wallet tag when the key is present
(so the literal 'external' tag of vendor payments and treasury moves lands
in the 'external' bucket), and a synthetic 'unknown' bucket when the
'wallet_to' key is absent (invoices) or both 'wallet_from' and 'wallet'
are absent; each bucket's incoming/outgoing counts equal the number of
transactions resolving to it. -/
theorem claim_C7_amended (txs : List Tx) (w : WTag) :
    incomingCount (summarize txs) w = (txs.countP fun t => decide (resolveTo t = w))
    ∧ outgoingCount (summarize txs) w = (txs.countP fun t => decide (resolveFrom t = w)) := by
  have hw : (summarize txs).wallets = txs.foldl wStep [] := by
    unfold summarize
    exact summarize_wallets txs _
  have h1 : incomingCount (summarize txs) w = inCnt (summarize txs).wallets w := rfl
  have h2 : outgoingCount (summarize txs) w = outCnt (summarize txs).wallets w := rfl
  rw [h1, h2, hw, inCnt_foldl, outCnt_foldl]
  have h0in : inCnt [] w = 0 := rfl
  have h0out : outCnt [] w = 0 := rfl
  constructor
  · omega
  · omega

/-! ### Subunit conversion arithmetic (claim C9) -/

theorem ratTrunc_intCast (n : ℤ) : ratTrunc (n : ℚ) = n := by
  unfold ratTrunc
  by_cases h : (0 : ℚ) ≤ (n : ℚ)
  · rw [if_pos h, Int.floor_intCast]
  · rw [if_neg h, Int.ceil_intCast]

theorem ratTrunc_intCast_div_pow (c : ℤ) (m : Nat) :
    ratTrunc ((c : ℚ) / (10 : ℚ) ^ m) = Int.tdiv c (10 ^ m) := by
  have h10 : (((10 : ℕ) ^ m : ℕ) : ℚ) = (10 : ℚ) ^ m := by push_cast; ring
  have h10z : (((10 : ℕ) ^ m : ℕ) : ℤ) = (10 : ℤ) ^ m := by push_cast; ring
  by_cases hc : 0 ≤ c
  · have hval : (0 : ℚ) ≤ (c : ℚ) / (10 : ℚ) ^ m := by positivity
    unfold ratTrunc
    rw [if_pos hval, ← h10, Rat.floor_intCast_div_natCast, h10z,
      Int.tdiv_eq_ediv hc (by positivity)]
  · have hcneg : c < 0 := by omega
    have hval : (c : ℚ) / (10 : ℚ) ^ m < 0 :=
      div_neg_of_neg_of_pos (by exact_mod_cast hcneg) (by positivity)
    unfold ratTrunc
    rw [if_neg (not_le.mpr hval)]
    have hsplit : (c : ℚ) / (10 : ℚ) ^ m = -((((-c) : ℤ) : ℚ) / (10 : ℚ) ^ m) := by
      push_cast
      ring
    rw [hsplit, Int.ceil_neg, ← h10, Rat.floor_intCast_div_natCast, h10z,
      ← Int.tdiv_eq_ediv (by omega) (by positivity), Int.neg_tdiv, neg_neg]

/-- int() of a Decimal truncates its rational value toward zero. -/
theorem decToInt_eq_ratTrunc (d : Dec) : decToInt d = ratTrunc d.val := by
  unfold decToInt Dec.val
  by_cases he : 0 ≤ d.e
  · rw [if_pos he]
    have he2 : d.e = (d.e.toNat : ℤ) := (Int.toNat_of_nonneg he).symm
    conv_rhs => rw [he2, zpow_natCast]
    rw [show ((d.c : ℚ) * (10 : ℚ) ^ d.e.toNat) = ((d.c * 10 ^ d.e.toNat : ℤ) : ℚ) by
      push_cast; ring]
    rw [ratTrunc_intCast]
  · rw [if_neg he]
    have he2 : d.e = -(((-d.e).toNat : ℕ) : ℤ) := by omega
    conv_rhs => rw [he2]
    rw [zpow_neg, zpow_natCast, ← div_eq_mul_inv]
    rw [ratTrunc_intCast_div_pow]

theorem log10_mul_pow (k : Nat) :
    ∀ m : Nat, m ≠ 0 → Nat.log 10 (m * 10 ^ k) = Nat.log 10 m + k := by
  induction k with
  | zero => intro m _; simp
  | succ k ih =>
    intro m hm
    have h1 : m * 10 ^ (k + 1) = (m * 10 ^ k) * 10 := by ring
    have h2 : m * 10 ^ k ≠ 0 := by positivity
    rw [h1, Nat.log_mul_base (by norm_num) h2, ih m hm]
    omega

/-- Context multiplication by COIN only shifts the coefficient by eight zero
digits, so the rounding to 8 significant digits is exact: the value is
multiplied by exactly 10^8. -/
theorem decMul_COINdec_val (d : Dec) (h : d.c.natAbs < 10 ^ 8) :
    (decMul d COINdec).val = d.val * 100000000 := by
  have hCOINc : (100000000 : ℤ).natAbs = 10 ^ 8 := by norm_num
  by_cases hc : d.c = 0
  · have hlen : decDigits (d.c * 100000000) ≤ 8 := by
      rw [hc]
      simp [decDigits]
    unfold decMul COINdec roundCtx
    rw [if_pos hlen]
    unfold Dec.val
    simp only [hc]
    push_cast
    ring
  · set m := d.c.natAbs with hm_def
    have hm : m ≠ 0 := Int.natAbs_ne_zero.2 hc
    have habs : (d.c * 100000000).natAbs = m * 10 ^ 8 := by
      rw [Int.natAbs_mul, hCOINc]
    have hlog : Nat.log 10 (m * 10 ^ 8) = Nat.log 10 m + 8 := log10_mul_pow 8 m hm
    have hmul_ne : m * 10 ^ 8 ≠ 0 := by positivity
    have hdig : decDigits (d.c * 100000000) = Nat.log 10 m + 9 := by
      unfold decDigits
      rw [habs, Nat.digits_len 10 _ (by norm_num) hmul_ne, hlog]
    have hloglt : Nat.log 10 m < 8 := Nat.log_lt_of_lt_pow hm h
    have hnotle : ¬ decDigits (d.c * 100000000) ≤ 8 := by omega
    have hkval : decDigits (d.c * 100000000) - 8 = Nat.log 10 m + 1 := by omega
    set k := Nat.log 10 m + 1 with hk_def
    have hkle : k ≤ 8 := by omega
    have hdvd : (10 : ℕ) ^ k ∣ m * 10 ^ 8 :=
      dvd_mul_of_dvd_right (pow_dvd_pow 10 hkle) m
    have hr : (m * 10 ^ 8) % 10 ^ k = 0 := Nat.dvd_iff_mod_eq_zero.mp hdvd
    have hq : roundHalfEvenNat ((d.c * 100000000).natAbs) k = (m * 10 ^ 8) / 10 ^ k := by
      unfold roundHalfEvenNat
      rw [habs, hr]
      rw [if_pos (by positivity)]
    have hqmul : ((m * 10 ^ 8) / 10 ^ k) * 10 ^ k = m * 10 ^ 8 :=
      Nat.div_mul_cancel hdvd
    have hstep : decMul d COINdec
        = ⟨(if d.c * 100000000 < 0 then -1 else 1) * (((m * 10 ^ 8) / 10 ^ k : ℕ) : ℤ),
            d.e + 0 + (k : ℕ)⟩ := by
      unfold decMul COINdec roundCtx
      simp only []
      rw [if_neg (by simpa using hnotle)]
      rw [hkval, hq]
    have hsign : (if d.c * 100000000 < 0 then (-1 : ℤ) else 1)
        = (if d.c < 0 then (-1 : ℤ) else 1) := by
      by_cases hneg : d.c < 0
      · rw [if_pos hneg, if_pos (by omega)]
      · rw [if_neg hneg, if_neg (by omega)]
    rw [hstep, hsign]
    unfold Dec.val
    simp only [add_zero]
    set s1 : ℤ := if d.c < 0 then -1 else 1 with hs_def
    set q1 : ℕ := (m * 10 ^ 8) / 10 ^ k with hq_def
    have hsC : (s1 : ℚ) * (m : ℚ) = (d.c : ℚ) := by
      by_cases hneg : d.c < 0
      · have hmz : ((m : ℕ) : ℤ) = -d.c := by omega
        rw [hs_def, if_pos hneg]
        calc ((-1 : ℤ) : ℚ) * (m : ℚ) = ((-1 * (m : ℤ) : ℤ) : ℚ) := by push_cast; ring
          _ = ((d.c : ℤ) : ℚ) := by rw [show (-1 * (m : ℤ) : ℤ) = d.c by omega]
      · have hmz : ((m : ℕ) : ℤ) = d.c := by omega
        rw [hs_def, if_neg hneg]
        calc ((1 : ℤ) : ℚ) * (m : ℚ) = ((1 * (m : ℤ) : ℤ) : ℚ) := by push_cast; ring
          _ = ((d.c : ℤ) : ℚ) := by rw [show (1 * (m : ℤ) : ℤ) = d.c by omega]
    have hA : (q1 : ℚ) * (10 : ℚ) ^ (k : ℕ) = (m : ℚ) * (10 : ℚ) ^ (8 : ℕ) := by
      have hcast : ((q1 * 10 ^ k : ℕ) : ℚ) = ((m * 10 ^ 8 : ℕ) : ℚ) := by
        rw [hqmul]
      simpa [Nat.cast_mul, Nat.cast_pow] using hcast
    have hB : (10 : ℚ) ^ (d.e + (k : ℕ) : ℤ) = (10 : ℚ) ^ d.e * (10 : ℚ) ^ (k : ℕ) := by
      rw [zpow_add₀ (by norm_num : (10 : ℚ) ≠ 0)]
      congr 1
      exact zpow_natCast 10 k
    calc ((s1 * (q1 : ℤ) : ℤ) : ℚ) * (10 : ℚ) ^ (d.e + (k : ℕ) : ℤ)
        = (s1 : ℚ) * (q1 : ℚ) * ((10 : ℚ) ^ d.e * (10 : ℚ) ^ (k : ℕ)) := by
          rw [hB]; push_cast; ring
      _ = (s1 : ℚ) * ((q1 : ℚ) * (10 : ℚ) ^ (k : ℕ)) * (10 : ℚ) ^ d.e := by ring
      _ = (s1 : ℚ) * ((m : ℚ) * (10 : ℚ) ^ (8 : ℕ)) * (10 : ℚ) ^ d.e := by rw [hA]
      _ = ((s1 : ℚ) * (m : ℚ)) * (10 : ℚ) ^ d.e * (10 : ℚ) ^ (8 : ℕ) := by ring
      _ = (d.c : ℚ) * (10 : ℚ) ^ d.e * (10 : ℚ) ^ (8 : ℕ) := by rw [hsC]
      _ = ((d.c : ℚ) * (10 : ℚ) ^ d.e) * 100000000 := by norm_num

/-- Claim C9: for every Decimal of at most 8 significant digits — which the
prec = 8 context guarantees for every Decimal produced by usd_to_btc's
division — btc_to_satoshis computes exactly the value multiplied by the fixed
subunit constant 100,000,000 and truncated toward zero to an integer. -/
theorem claim_C9 (d : Dec) (h : d.c.natAbs < 10 ^ 8) :
    btc_to_satoshis d = ratTrunc (d.val * 100000000) := by
  unfold btc_to_satoshis
  rw [decToInt_eq_ratTrunc, decMul_COINdec_val d h]

/-- Witness for claim C9 at the Decimal 0.12345678 (coefficient 12345678,
exponent -8). -/
theorem claim_C9_witness :
    (Dec.mk 12345678 (-8)).c.natAbs < 10 ^ 8
    ∧ btc_to_satoshis (Dec.mk 12345678 (-8))
        = ratTrunc ((Dec.mk 12345678 (-8)).val * 100000000) :=
  ⟨by norm_num, claim_C9 _ (by norm_num)⟩

/-! ### Determinism (claim C8) -/

/-- Claim C8: the generator is deterministic.  The source seeds the global
random / numpy generators once from the given seed (WalletSimulator.__init__),
so the draw streams are a function of seed and date range alone; the embedded
pipeline reads nothing besides those streams.  Two runs whose draw streams
agree pointwise — as two runs with identical seed and date range do — produce
exactly the same final block-height-ordered transaction log. -/
theorem claim_C8 (o1 o2 : Oracle)
    (hInvDate : ∀ i, o1.invDate i = o2.invDate i)
    (hInvSat : ∀ i, o1.invSat i = o2.invSat i)
    (hInvAddr : ∀ i, o1.invAddr i = o2.invAddr i)
    (hInvInc : ∀ i, o1.invInc i = o2.invInc i)
    (hConsAddr : ∀ p i, o1.consAddr p i = o2.consAddr p i)
    (hConsInc : ∀ p i, o1.consInc p i = o2.consInc p i)
    (hTransInc : o1.transInc = o2.transInc)
    (hVendDate : ∀ i, o1.vendDate i = o2.vendDate i)
    (hVendSat : ∀ i, o1.vendSat i = o2.vendSat i)
    (hVendInc : ∀ i, o1.vendInc i = o2.vendInc i)
    (hOutDay : ∀ i, o1.outDay i = o2.outDay i)
    (hOutSat : ∀ i, o1.outSat i = o2.outSat i)
    (hOutAddr : ∀ i, o1.outAddr i = o2.outAddr i)
    (hOutInc : ∀ i, o1.outInc i = o2.outInc i)
    (hIncDay : ∀ i, o1.incDay i = o2.incDay i)
    (hIncSat : ∀ i, o1.incSat i = o2.incSat i)
    (hIncAddr : ∀ i, o1.incAddr i = o2.incAddr i)
    (hIncInc : ∀ i, o1.incInc i = o2.incInc i) :
    allTransactionsSorted o1 = allTransactionsSorted o2 := by
  have heq : o1 = o2 := by
    cases o1
    cases o2
    simp only [Oracle.mk.injEq]
    exact ⟨funext hInvDate, funext hInvSat, funext hInvAddr, funext hInvInc,
      funext fun p => funext fun i => hConsAddr p i,
      funext fun p => funext fun i => hConsInc p i,
      hTransInc, funext hVendDate, funext hVendSat, funext hVendInc,
      funext hOutDay, funext hOutSat, funext hOutAddr, funext hOutInc,
      funext hIncDay, funext hIncSat, funext hIncAddr, funext hIncInc⟩
  rw [heq]

theorem ptwise_refl {gam : Type} (f : Nat → gam) : ∀ i, f i = f i := fun _ => rfl

theorem ptwise_refl2 {gam : Type} (f : Nat → Nat → gam) : ∀ p i, f p i = f p i :=
  fun _ _ => rfl

/-- Witness for claim C8: two separately written but pointwise-equal oracles. -/
theorem claim_C8_witness :
    allTransactionsSorted o0 = allTransactionsSorted { o0 with invSat := fun _ => 7 } :=
  claim_C8 o0 { o0 with invSat := fun _ => 7 }
    (ptwise_refl _) (ptwise_refl _) (ptwise_refl _) (ptwise_refl _)
    (ptwise_refl2 _) (ptwise_refl2 _) rfl
    (ptwise_refl _) (ptwise_refl _) (ptwise_refl _)
    (ptwise_refl _) (ptwise_refl _) (ptwise_refl _) (ptwise_refl _)
    (ptwise_refl _) (ptwise_refl _) (ptwise_refl _) (ptwise_refl _)

/-! ### Invoice phase structure (claim C4) -/

theorem choice_mem {α : Type} [Inhabited α] (l : List α) (hl : l ≠ []) (k : Nat) :
    choice l k ∈ l := by
  have hlen : 0 < l.length := List.length_pos.2 hl
  have hlt : k % l.length < l.length := Nat.mod_lt k hlen
  unfold choice
  rw [List.getD_eq_getElem l default hlt]
  exact List.getElem_mem hlt

/-- One invoice step appends one transaction record. -/
theorem invoiceStep_txs (o : Oracle) (S : InvState) (i : Nat) :
    (invoiceStep o S i).txs = S.txs ++ [mkInvoiceTx o i S.height] := rfl

/-- The recipient address of an invoice is the drawn wallet-A address. -/
theorem mkInvoiceTx_toAddress (o : Oracle) (i h : Nat) :
    (mkInvoiceTx o i h).toAddress = choice walletAAddresses (o.invAddr i) := by
  simp only [mkInvoiceTx]

/-- One invoice step appends one minted UTXO. -/
theorem invoiceStep_utxos (o : Oracle) (S : InvState) (i : Nat) :
    (invoiceStep o S i).utxos
      = S.utxos ++ [⟨.invoice i, 0, o.invSat i, (mkInvoiceTx o i S.height).toAddress, S.height⟩] := rfl

/-- Closed form of the invoice generation loop: txs and minted UTXOs are the
range-indexed records, with some stream of pre-sort block heights. -/
theorem invoiceIter_spec (o : Oracle) (us0 : List Utxo) :
    ∀ n, ∃ hs : Nat → Nat,
      (iter (invoiceStep o) ⟨[], us0, 1⟩ n).txs
        = (List.range n).map (fun i => mkInvoiceTx o i (hs i))
      ∧ (iter (invoiceStep o) ⟨[], us0, 1⟩ n).utxos
        = us0 ++ (List.range n).map
            (fun i => ⟨.invoice i, 0, o.invSat i, (mkInvoiceTx o i (hs i)).toAddress, hs i⟩) := by
  intro n
  induction n with
  | zero => exact ⟨fun _ => 0, by simp [iter], by simp [iter]⟩
  | succ n ih =>
    rcases ih with ⟨hs, htx, hut⟩
    have hstep : iter (invoiceStep o) ⟨[], us0, 1⟩ (n + 1)
        = invoiceStep o (iter (invoiceStep o) ⟨[], us0, 1⟩ n) n := rfl
    refine ⟨fun j => if j = n then (iter (invoiceStep o) ⟨[], us0, 1⟩ n).height else hs j, ?_, ?_⟩
    · rw [hstep, invoiceStep_txs, htx, List.range_succ, List.map_append]
      congr 1
      · apply List.map_congr_left
        intro i hi
        have hne : i ≠ n := by
          have := List.mem_range.1 hi
          omega
        simp [hne]
      · simp [mkInvoiceTx]
    · rw [hstep, invoiceStep_utxos, hut, List.range_succ, List.map_append, List.append_assoc]
      congr 2
      · apply List.map_congr_left
        intro i hi
        have hne : i ≠ n := by
          have := List.mem_range.1 hi
          omega
        simp [hne]
      · simp

theorem assignFrom_heights (k : Nat) (l : List Tx) :
    (assignFrom k l).map Tx.blockHeight = (List.range l.length).map (k + ·) := by
  induction l generalizing k with
  | nil => rfl
  | cons t ts ih =>
    simp only [assignFrom, List.map_cons, List.length_cons, List.range_succ_eq_map,
      List.map_map]
    rw [ih (k + 1)]
    simp only [List.cons.injEq]
    refine ⟨by omega, ?_⟩
    apply List.map_congr_left
    intro i _
    simp only [Function.comp_apply]
    omega

theorem assignFrom_map {β : Type} (f : Tx → β)
    (hf : ∀ t k, f { t with blockHeight := k } = f t) (k : Nat) (l : List Tx) :
    (assignFrom k l).map f = l.map f := by
  induction l generalizing k with
  | nil => rfl
  | cons t ts ih =>
    simp only [assignFrom, List.map_cons, hf, ih (k + 1)]

theorem assignFrom_length (k : Nat) (l : List Tx) :
    (assignFrom k l).length = l.length := by
  induction l generalizing k with
  | nil => rfl
  | cons t ts ih =>
    simp only [assignFrom, List.length_cons, ih (k + 1)]

theorem assignFrom_mem {t : Tx} :
    ∀ {k : Nat} {l : List Tx}, t ∈ assignFrom k l →
      ∃ t2 ∈ l, ∃ k2, t = { t2 with blockHeight := k2 } := by
  intro k l
  induction l generalizing k with
  | nil => intro h; cases h
  | cons t0 ts ih =>
    intro h
    rcases List.mem_cons.1 h with rfl | h
    · exact ⟨t0, List.mem_cons_self t0 ts, k, rfl⟩
    · rcases ih h with ⟨t2, ht2, k2, rfl⟩
      exact ⟨t2, List.mem_cons_of_mem t0 ht2, k2, rfl⟩

theorem updateUtxoHeights_txids : ∀ (txs : List Tx) (us : List Utxo),
    (updateUtxoHeights txs us).map Utxo.txid = us.map Utxo.txid := by
  intro txs
  induction txs with
  | nil => intro us; rfl
  | cons t ts ih =>
    intro us
    have hstep : updateUtxoHeights (t :: ts) us
        = updateUtxoHeights ts (us.map fun u =>
            if u.txid = t.txid then { u with blockHeight := t.blockHeight } else u) := rfl
    rw [hstep, ih, List.map_map]
    apply List.map_congr_left
    intro u _
    simp only [Function.comp_apply]
    by_cases h : u.txid = t.txid
    · rw [if_pos h]
    · rw [if_neg h]

theorem updateUtxoHeights_preserve (b : Nat) (x : Txid) :
    ∀ (txs : List Tx) (us : List Utxo),
      x ∉ txs.map Tx.txid →
      (∀ v ∈ us, v.txid = x → v.blockHeight = b) →
      ∀ u ∈ updateUtxoHeights txs us, u.txid = x → u.blockHeight = b := by
  intro txs
  induction txs with
  | nil => intro us _ hH u hu; exact hH u hu
  | cons t ts ih =>
    intro us hx hH u hu hux
    have hxt : x ≠ t.txid := by
      intro he
      exact hx (by simp [he])
    have hxts : x ∉ ts.map Tx.txid := by
      intro he
      exact hx (by simp [he])
    have hstep : updateUtxoHeights (t :: ts) us
        = updateUtxoHeights ts (us.map fun u =>
            if u.txid = t.txid then { u with blockHeight := t.blockHeight } else u) := rfl
    rw [hstep] at hu
    refine ih _ hxts ?_ u hu hux
    intro v hv hvx
    rcases List.mem_map.1 hv with ⟨v0, hv0, rfl⟩
    by_cases h : v0.txid = t.txid
    · rw [if_pos h] at hvx ⊢
      exact absurd (hvx.symm.trans h) hxt
    · rw [if_neg h] at hvx ⊢
      exact hH v0 hv0 hvx

/-- If the transaction txids are distinct, after the fix-up loop every UTXO
sharing a txid with a transaction carries that transaction's block height. -/
theorem updateUtxoHeights_match : ∀ (txs : List Tx) (us : List Utxo),
    (txs.map Tx.txid).Nodup →
    ∀ u ∈ updateUtxoHeights txs us, ∀ t ∈ txs, t.txid = u.txid →
      u.blockHeight = t.blockHeight := by
  intro txs
  induction txs with
  | nil => intro us _ u _ t ht; cases ht
  | cons t0 ts ih =>
    intro us hnd u hu t ht htu
    have hnd2 : (t0.txid ∉ ts.map Tx.txid) ∧ (ts.map Tx.txid).Nodup := by
      rw [List.map_cons] at hnd
      exact List.nodup_cons.1 hnd
    have hstep : updateUtxoHeights (t0 :: ts) us
        = updateUtxoHeights ts (us.map fun u =>
            if u.txid = t0.txid then { u with blockHeight := t0.blockHeight } else u) := rfl
    rw [hstep] at hu
    rcases List.mem_cons.1 ht with rfl | ht
    · refine updateUtxoHeights_preserve t.blockHeight t.txid ts _ hnd2.1 ?_ u hu htu.symm
      intro v hv hvx
      rcases List.mem_map.1 hv with ⟨v0, hv0, rfl⟩
      by_cases h : v0.txid = t.txid
      · rw [if_pos h]
      · rw [if_neg h] at hvx ⊢
        exact absurd hvx h
    · exact ih _ hnd2.2 u hu t ht htu

/-- Wallet A's address pool is nonempty. -/
theorem walletAAddresses_ne_nil : walletAAddresses ≠ [] := by
  intro h
  have : walletAAddresses.length = 10000 := by
    simp [walletAAddresses]
  rw [h] at this
  cases this

/-! Invoice-phase helper facts shared by several claims. -/

theorem invoiceGen_transactions (o : Oracle) :
    (invoiceGen o initState).transactions
      = assignFrom 100 (stableSort dateLe (invoiceRaw o []).txs) := by
  simp only [invoiceGen, initState, assignHeights]
  rw [List.nil_append]

theorem invoiceGen_utxosA (o : Oracle) :
    (invoiceGen o initState).utxosA
      = updateUtxoHeights (assignFrom 100 (stableSort dateLe (invoiceRaw o []).txs))
          (invoiceRaw o []).utxos := by
  simp only [invoiceGen, initState, assignHeights]

theorem invoiceRaw_spec (o : Oracle) :
    ∃ hs : Nat → Nat,
      (invoiceRaw o []).txs = (List.range 10000).map (fun i => mkInvoiceTx o i (hs i))
      ∧ (invoiceRaw o []).utxos = (List.range 10000).map
          (fun i => ⟨.invoice i, 0, o.invSat i, (mkInvoiceTx o i (hs i)).toAddress, hs i⟩) := by
  rcases invoiceIter_spec o [] 10000 with ⟨hs, h1, h2⟩
  exact ⟨hs, h1, by simpa using h2⟩

/-- The final invoice transaction list's txids, in order, after the re-sort:
a permutation of invoice_0 .. invoice_9999. -/
theorem invoiceGen_txids_perm (o : Oracle) :
    ((invoiceGen o initState).transactions.map Tx.txid).Perm
      ((List.range 10000).map Txid.invoice) := by
  rcases invoiceRaw_spec o with ⟨hs, h1, _⟩
  rw [invoiceGen_transactions]
  rw [assignFrom_map Tx.txid (fun _ _ => rfl)]
  refine ((stableSort_perm dateLe _).map Tx.txid).trans ?_
  rw [h1, List.map_map]
  apply List.Perm.of_eq
  apply List.map_congr_left
  intro i _
  rfl

theorem invoiceGen_txids_nodup (o : Oracle) :
    ((invoiceGen o initState).transactions.map Tx.txid).Nodup := by
  refine (invoiceGen_txids_perm o).symm.nodup ?_
  refine List.Nodup.map ?_ (List.nodup_range 10000)
  intro a b h
  injection h

theorem invoiceGen_utxosA_txids (o : Oracle) :
    (invoiceGen o initState).utxosA.map Utxo.txid = (List.range 10000).map Txid.invoice := by
  rcases invoiceRaw_spec o with ⟨hs, _, h2⟩
  rw [invoiceGen_utxosA, updateUtxoHeights_txids, h2, List.map_map]
  apply List.map_congr_left
  intro i _
  rfl

/-- Every final invoice transaction is invoice-shaped: type invoice, wallet
key 'A', no inputs, a wallet-A destination address, and an invoice txid. -/
theorem invoiceGen_shape (o : Oracle) :
    ∀ t ∈ (invoiceGen o initState).transactions,
      t.type = TxType.invoice ∧ t.wallet = some WTag.A ∧ t.inputs = []
      ∧ t.toAddress ∈ walletAAddresses ∧ ∃ i, i < 10000 ∧ t.txid = Txid.invoice i := by
  rcases invoiceRaw_spec o with ⟨hs, h1, _⟩
  intro t ht
  rw [invoiceGen_transactions] at ht
  rcases assignFrom_mem ht with ⟨t2, ht2, k2, rfl⟩
  have ht2r : t2 ∈ (invoiceRaw o []).txs := (stableSort_perm dateLe _).mem_iff.1 ht2
  rw [h1] at ht2r
  rcases List.mem_map.1 ht2r with ⟨i, hi, rfl⟩
  refine ⟨rfl, rfl, rfl, ?_, i, List.mem_range.1 hi, rfl⟩
  simp only [mkInvoiceTx]
  exact choice_mem _ walletAAddresses_ne_nil _

theorem dateLe_total (a b : Tx) : dateLe a b = true ∨ dateLe b a = true := by
  rcases Nat.le_total a.date.ord b.date.ord with h | h
  · left
    simpa [dateLe] using h
  · right
    simpa [dateLe] using h

theorem dateLe_trans (a b c : Tx) (hab : dateLe a b = true) (hbc : dateLe b c = true) :
    dateLe a c = true := by
  simp only [dateLe, decide_eq_true_eq] at hab hbc ⊢
  omega

theorem invoiceGen_length (o : Oracle) :
    (invoiceGen o initState).transactions.length = 10000 := by
  rcases invoiceRaw_spec o with ⟨hs, h1, _⟩
  rw [invoiceGen_transactions, assignFrom_length, (stableSort_perm dateLe _).length_eq, h1]
  simp

/-- Claim C4: the invoice phase produces exactly 10000 transactions, each of
type invoice with a destination address in the invoicing wallet's pool;
the final list is in date order and the i-th transaction carries block height
exactly 100 + i; and every minted invoice UTXO carries the same re-derived
block height as its transaction.  (Proved for every draw stream, hence in
particular for the streams of seed 42 over 2024-01-01..2024-12-31.) -/
theorem claim_C4 (o : Oracle) :
    (invoiceGen o initState).transactions.length = 10000
    ∧ (∀ t ∈ (invoiceGen o initState).transactions,
        t.type = TxType.invoice ∧ t.toAddress ∈ walletAAddresses)
    ∧ List.Pairwise (fun t u : Tx => t.date.ord ≤ u.date.ord)
        (invoiceGen o initState).transactions
    ∧ (invoiceGen o initState).transactions.map Tx.blockHeight
        = (List.range 10000).map (fun i => 100 + i)
    ∧ ∀ u ∈ (invoiceGen o initState).utxosA,
        ∀ t ∈ (invoiceGen o initState).transactions,
          t.txid = u.txid → u.blockHeight = t.blockHeight := by
  refine ⟨invoiceGen_length o, ?_, ?_, ?_, ?_⟩
  · intro t ht
    rcases invoiceGen_shape o t ht with ⟨h1, _, _, h4, _⟩
    exact ⟨h1, h4⟩
  · rw [invoiceGen_transactions]
    have hp : List.Pairwise (fun a b : Tx => dateLe a b = true)
        (stableSort dateLe (invoiceRaw o []).txs) :=
      stableSort_pairwise dateLe dateLe_total dateLe_trans _
    have hmap := assignFrom_map (fun t : Tx => t.date.ord) (fun _ _ => rfl) 100
      (stableSort dateLe (invoiceRaw o []).txs)
    refine List.pairwise_map.1 ?_
    rw [hmap]
    refine List.pairwise_map.2 ?_
    refine hp.imp ?_
    intro a b hab
    simpa [dateLe] using hab
  · have hlen : (stableSort dateLe (invoiceRaw o []).txs).length = 10000 := by
      have := invoiceGen_length o
      rw [invoiceGen_transactions, assignFrom_length] at this
      exact this
    rw [invoiceGen_transactions, assignFrom_heights, hlen]
  · have hnd := invoiceGen_txids_nodup o
    rw [invoiceGen_transactions] at hnd
    intro u hu t ht htu
    rw [invoiceGen_utxosA] at hu
    rw [invoiceGen_transactions] at ht
    exact updateUtxoHeights_match _ _ hnd u hu t ht htu

/-- Witness instantiating claim C4 at a concrete draw oracle. -/
theorem claim_C4_witness :
    (invoiceGen o0 initState).transactions.length = 10000
    ∧ (∀ t ∈ (invoiceGen o0 initState).transactions,
        t.type = TxType.invoice ∧ t.toAddress ∈ walletAAddresses)
    ∧ List.Pairwise (fun t u : Tx => t.date.ord ≤ u.date.ord)
        (invoiceGen o0 initState).transactions
    ∧ (invoiceGen o0 initState).transactions.map Tx.blockHeight
        = (List.range 10000).map (fun i => 100 + i)
    ∧ ∀ u ∈ (invoiceGen o0 initState).utxosA,
        ∀ t ∈ (invoiceGen o0 initState).transactions,
          t.txid = u.txid → u.blockHeight = t.blockHeight :=
  claim_C4 o0

/-! ### Consolidation phase structure (claims C10 and C1) -/

theorem addToGroup_flatMap (g : List (Nat × List URef)) (p : Nat) (r : URef) :
    ((addToGroup g p r).flatMap (·.2)).Perm (g.flatMap (·.2) ++ [r]) := by
  induction g with
  | nil => simp [addToGroup]
  | cons e rest ih =>
    by_cases h : e.1 = p
    · have hstep : addToGroup (e :: rest) p r = (e.1, e.2 ++ [r]) :: rest := by
        rcases e with ⟨q, rs⟩
        simp only [addToGroup]
        rw [if_pos h]
      rw [hstep]
      simp only [List.flatMap_cons]
      rw [List.append_assoc, List.append_assoc]
      exact List.Perm.append_left e.2 List.perm_append_comm
    · have hstep : addToGroup (e :: rest) p r = e :: addToGroup rest p r := by
        rcases e with ⟨q, rs⟩
        simp only [addToGroup]
        rw [if_neg h]
      rw [hstep]
      simp only [List.flatMap_cons]
      refine (List.Perm.append_left e.2 ih).trans ?_
      rw [← List.append_assoc]

theorem groupByPeriod_flatMap (txs : List Tx) :
    ((groupByPeriod txs).flatMap (·.2)).Perm
      ((txs.filter fun t => decide (t.wallet = some WTag.A)).map
        fun t => (⟨t.txid, 0, t.satoshis, t.toAddress⟩ : URef)) := by
  suffices h : ∀ (g : List (Nat × List URef)),
      ((txs.foldl
          (fun g tx =>
            if tx.wallet = some WTag.A then
              addToGroup g (periodOf tx.date) ⟨tx.txid, 0, tx.satoshis, tx.toAddress⟩
            else g) g).flatMap (·.2)).Perm
        (g.flatMap (·.2)
          ++ (txs.filter fun t => decide (t.wallet = some WTag.A)).map
              fun t => (⟨t.txid, 0, t.satoshis, t.toAddress⟩ : URef)) by
    simpa [groupByPeriod] using h []
  induction txs with
  | nil => intro g; simp
  | cons t ts ih =>
    intro g
    simp only [List.foldl_cons]
    by_cases h : t.wallet = some WTag.A
    · rw [if_pos h]
      refine (ih _).trans ?_
      rw [List.filter_cons, if_pos (by simpa using h)]
      simp only [List.map_cons]
      refine ((addToGroup_flatMap g (periodOf t.date) _).append_right _).trans ?_
      rw [List.append_assoc]
      exact List.Perm.append_left _ (List.perm_middle.symm)
    · rw [if_neg h]
      refine (ih _).trans ?_
      rw [List.filter_cons, if_neg (by simpa using h)]

theorem chunksOf_flatMap {α : Type} (ss : List Nat) :
    ∀ l : List α, (chunksOf l ss).flatMap id = l.take ss.sum := by
  induction ss with
  | nil => intro l; simp [chunksOf]
  | cons sz rest ih =>
    intro l
    simp only [chunksOf, List.flatMap_cons, List.sum_cons, id]
    rw [ih (l.drop sz), List.take_add]

theorem ite_sum_range (q : Nat) : ∀ (n r : Nat),
    ((List.range n).map fun i => if i < r then q + 1 else q).sum = n * q + min r n := by
  intro n
  induction n with
  | zero => intro r; simp
  | succ n ih =>
    intro r
    rw [List.range_succ, List.map_append, List.sum_append, ih r]
    by_cases h : n < r
    · rw [List.map_cons]
      simp only [if_pos h, List.map_nil, List.sum_cons, List.sum_nil]
      have h1 : min r n = n := by omega
      have h2 : min r (n + 1) = n + 1 := by omega
      rw [h1, h2]
      ring
    · rw [List.map_cons]
      simp only [if_neg h, List.map_nil, List.sum_cons, List.sum_nil]
      have h1 : min r n = min r (n + 1) := by omega
      rw [← h1]
      ring

theorem splitSizes_sum (len n : Nat) (hn : 0 < n) : (splitSizes len n).sum = len := by
  unfold splitSizes
  rw [ite_sum_range]
  have hmod : len % n < n := Nat.mod_lt len hn
  have hmin : min (len % n) n = len % n := by omega
  rw [hmin]
  have := Nat.div_add_mod len n
  omega

theorem arraySplit_flatMap {α : Type} (l : List α) (n : Nat) (hn : 0 < n) :
    (arraySplit l n).flatMap id = l := by
  unfold arraySplit
  rw [chunksOf_flatMap, splitSizes_sum _ _ hn, List.take_length]

theorem numConsolidations_pos (p : Nat) : 0 < numConsolidations p := by
  unfold numConsolidations
  split <;> norm_num

theorem consChunk_uA (o : Oracle) (p i : Nat) (st : ConsState) (chunk : List URef) :
    (consChunk o p i st chunk).uA
      = st.uA.filter fun u => chunk.all fun r => decide (r.txid ≠ u.txid) := by
  unfold consChunk
  by_cases h : chunk.isEmpty
  · rw [if_pos h]
    have hc : chunk = [] := List.isEmpty_iff.1 h
    subst hc
    simp
  · rw [if_neg h]

theorem consChunk_consInputs (o : Oracle) (p i : Nat) (st : ConsState) (chunk : List URef) :
    (((consChunk o p i st chunk).txs.filter
        fun t => decide (t.type = TxType.consolidation)).flatMap Tx.inputs)
      = ((st.txs.filter fun t => decide (t.type = TxType.consolidation)).flatMap Tx.inputs)
        ++ chunk.map fun r => (r.txid, r.vout) := by
  unfold consChunk
  by_cases h : chunk.isEmpty
  · rw [if_pos h]
    have hc : chunk = [] := List.isEmpty_iff.1 h
    subst hc
    simp
  · rw [if_neg h]
    simp only [List.filter_append, List.flatMap_append]
    rw [List.filter_cons, if_pos (by simp), List.filter_nil]
    simp

theorem enumFrom_all {α : Type} (f : α → Bool) :
    ∀ (l : List (List α)) (k : Nat),
      ((List.enumFrom k l).all fun ic => ic.2.all f) = l.all fun c => c.all f := by
  intro l
  induction l with
  | nil => intro k; rfl
  | cons c cs ih =>
    intro k
    simp only [List.enumFrom, List.all_cons, ih (k + 1)]

theorem all_join {α : Type} (f : α → Bool) :
    ∀ ls : List (List α), (ls.all fun c => c.all f) = (ls.flatMap id).all f := by
  intro ls
  induction ls with
  | nil => rfl
  | cons c cs ih =>
    simp only [List.all_cons, List.flatMap_cons, List.all_append, ih, id]

theorem chunkFold_uA (o : Oracle) (p : Nat) :
    ∀ (cs : List (Nat × List URef)) (st : ConsState),
      (cs.foldl (fun st ic => consChunk o p ic.1 st ic.2) st).uA
        = st.uA.filter fun u => cs.all fun ic => ic.2.all fun r => decide (r.txid ≠ u.txid) := by
  intro cs
  induction cs with
  | nil => intro st; simp
  | cons c cs ih =>
    intro st
    simp only [List.foldl_cons]
    rw [ih, consChunk_uA, List.filter_filter]
    apply List.filter_congr
    intro u _
    simp only [List.all_cons]
    rw [Bool.and_comm]

theorem chunkFold_consInputs (o : Oracle) (p : Nat) :
    ∀ (cs : List (Nat × List URef)) (st : ConsState),
      (((cs.foldl (fun st ic => consChunk o p ic.1 st ic.2) st).txs.filter
          fun t => decide (t.type = TxType.consolidation)).flatMap Tx.inputs)
        = ((st.txs.filter fun t => decide (t.type = TxType.consolidation)).flatMap Tx.inputs)
          ++ cs.flatMap fun ic => ic.2.map fun r => (r.txid, r.vout) := by
  intro cs
  induction cs with
  | nil => intro st; simp
  | cons c cs ih =>
    intro st
    simp only [List.foldl_cons, List.flatMap_cons]
    rw [ih, consChunk_consInputs, List.append_assoc]

theorem enumFrom_flatMap {α β : Type} (f : α → β) :
    ∀ (l : List (List α)) (k : Nat),
      ((List.enumFrom k l).flatMap fun ic => ic.2.map f) = l.flatMap fun c => c.map f := by
  intro l
  induction l with
  | nil => intro k; rfl
  | cons c cs ih =>
    intro k
    simp only [List.enumFrom, List.flatMap_cons, ih (k + 1)]

theorem join_map {α β : Type} (f : α → β) :
    ∀ ls : List (List α), (ls.flatMap fun c => c.map f) = (ls.flatMap id).map f := by
  intro ls
  induction ls with
  | nil => rfl
  | cons c cs ih =>
    simp only [List.flatMap_cons, List.map_append, ih, id]

theorem consPeriod_uA (o : Oracle) (st : ConsState) (pr : Nat × List URef) :
    (consPeriod o st pr).uA
      = st.uA.filter fun u => pr.2.all fun r => decide (r.txid ≠ u.txid) := by
  unfold consPeriod
  rw [chunkFold_uA]
  apply List.filter_congr
  intro u _
  rw [show (arraySplit pr.2 (numConsolidations pr.1)).enum
      = List.enumFrom 0 (arraySplit pr.2 (numConsolidations pr.1)) from rfl]
  rw [enumFrom_all, all_join, arraySplit_flatMap _ _ (numConsolidations_pos pr.1)]

theorem consPeriod_consInputs (o : Oracle) (st : ConsState) (pr : Nat × List URef) :
    (((consPeriod o st pr).txs.filter
        fun t => decide (t.type = TxType.consolidation)).flatMap Tx.inputs)
      = ((st.txs.filter fun t => decide (t.type = TxType.consolidation)).flatMap Tx.inputs)
        ++ pr.2.map fun r => (r.txid, r.vout) := by
  unfold consPeriod
  rw [chunkFold_consInputs]
  congr 1
  rw [show (arraySplit pr.2 (numConsolidations pr.1)).enum
      = List.enumFrom 0 (arraySplit pr.2 (numConsolidations pr.1)) from rfl]
  rw [enumFrom_flatMap, join_map, arraySplit_flatMap _ _ (numConsolidations_pos pr.1)]

theorem groupsFold_uA (o : Oracle) :
    ∀ (G : List (Nat × List URef)) (st : ConsState),
      (G.foldl (consPeriod o) st).uA
        = st.uA.filter fun u => G.all fun pr => pr.2.all fun r => decide (r.txid ≠ u.txid) := by
  intro G
  induction G with
  | nil => intro st; simp
  | cons pr G ih =>
    intro st
    simp only [List.foldl_cons]
    rw [ih, consPeriod_uA, List.filter_filter]
    apply List.filter_congr
    intro u _
    simp only [List.all_cons]
    rw [Bool.and_comm]

theorem groupsFold_consInputs (o : Oracle) :
    ∀ (G : List (Nat × List URef)) (st : ConsState),
      (((G.foldl (consPeriod o) st).txs.filter
          fun t => decide (t.type = TxType.consolidation)).flatMap Tx.inputs)
        = ((st.txs.filter fun t => decide (t.type = TxType.consolidation)).flatMap Tx.inputs)
          ++ G.flatMap fun pr => pr.2.map fun r => (r.txid, r.vout) := by
  intro G
  induction G with
  | nil => intro st; simp
  | cons pr G ih =>
    intro st
    simp only [List.foldl_cons, List.flatMap_cons]
    rw [ih, consPeriod_consInputs, List.append_assoc]

theorem join_map_snd {β : Type} (f : URef → β) :
    ∀ ls : List (Nat × List URef),
      (ls.flatMap fun pr => pr.2.map f) = (ls.flatMap (·.2)).map f := by
  intro ls
  induction ls with
  | nil => rfl
  | cons c cs ih =>
    simp only [List.flatMap_cons, List.map_append, ih]

theorem consolidationGen_utxosA (o : Oracle) (s : SimState) :
    (consolidationGen o s).utxosA
      = s.utxosA.filter fun u => (groupByPeriod s.transactions).all
          fun pr => pr.2.all fun r => decide (r.txid ≠ u.txid) := by
  unfold consolidationGen
  simp only []
  rw [groupsFold_uA]

theorem consolidationGen_transactions (o : Oracle) (s : SimState) :
    (consolidationGen o s).transactions
      = s.transactions
        ++ ((groupByPeriod s.transactions).foldl (consPeriod o)
            ⟨[], s.utxosA, s.utxosB, maxHeight s.utxosA + 1⟩).txs := rfl

theorem consolidationGen_consInputs (o : Oracle) (s : SimState)
    (hinv : ∀ t ∈ s.transactions, t.type ≠ TxType.consolidation) :
    (((consolidationGen o s).transactions.filter
        fun t => decide (t.type = TxType.consolidation)).flatMap Tx.inputs)
      = (groupByPeriod s.transactions).flatMap fun pr => pr.2.map fun r => (r.txid, r.vout) := by
  rw [consolidationGen_transactions, List.filter_append, List.flatMap_append]
  have h1 : s.transactions.filter (fun t => decide (t.type = TxType.consolidation)) = [] :=
    List.filter_eq_nil_iff.2 fun t ht => by simpa using hinv t ht
  rw [h1, groupsFold_consInputs]
  simp

theorem checkingGen_utxosA (o : Oracle) (s : SimState) :
    (checkingGen o s).utxosA = s.utxosA := rfl

theorem specialGen_utxosA (o : Oracle) (s : SimState) :
    (specialGen o s).utxosA = s.utxosA := rfl

theorem post_phases_utxosA (o : Oracle) (s : SimState) :
    (specialGen o (checkingGen o s)).utxosA = s.utxosA := rfl

theorem invoiceGen_filterA (o : Oracle) :
    (invoiceGen o initState).transactions.filter
        (fun t => decide (t.wallet = some WTag.A))
      = (invoiceGen o initState).transactions := by
  refine List.filter_eq_self.2 ?_
  intro t ht
  simpa using (invoiceGen_shape o t ht).2.1

theorem runAll_eq (o : Oracle) :
    runAll o = specialGen o (checkingGen o (consolidationGen o (invoiceGen o initState))) := rfl

theorem invoiceGen_no_consolidation (o : Oracle) :
    ∀ t ∈ (invoiceGen o initState).transactions, t.type ≠ TxType.consolidation := by
  intro t ht
  rw [(invoiceGen_shape o t ht).1]
  intro h
  cases h

/-- Claim C10: once the consolidation phase has run after the invoice phase,
the invoicing wallet's live UTXO set is empty and stays empty to the end of
the run, and the consolidation transactions' inputs consume exactly the
minted invoice outputs — each (txid, 0) pair exactly once. -/
theorem claim_C10 (o : Oracle) :
    (consolidationGen o (invoiceGen o initState)).utxosA = []
    ∧ (runAll o).utxosA = []
    ∧ (((consolidationGen o (invoiceGen o initState)).transactions.filter
          fun t => decide (t.type = TxType.consolidation)).flatMap Tx.inputs).Perm
        ((invoiceGen o initState).transactions.map fun t => (t.txid, 0))
    ∧ (((consolidationGen o (invoiceGen o initState)).transactions.filter
          fun t => decide (t.type = TxType.consolidation)).flatMap Tx.inputs).Nodup := by
  have hperm :
      (((consolidationGen o (invoiceGen o initState)).transactions.filter
          fun t => decide (t.type = TxType.consolidation)).flatMap Tx.inputs).Perm
        ((invoiceGen o initState).transactions.map fun t => (t.txid, 0)) := by
    rw [consolidationGen_consInputs o _ (invoiceGen_no_consolidation o), join_map_snd]
    refine ((groupByPeriod_flatMap _).map _).trans ?_
    rw [invoiceGen_filterA, List.map_map]
    apply List.Perm.of_eq
    apply List.map_congr_left
    intro t _
    rfl
  have hnodup : (((invoiceGen o initState).transactions.map fun t => (t.txid, 0))).Nodup := by
    have h1 := invoiceGen_txids_nodup o
    have h2 : ((invoiceGen o initState).transactions.map fun t => (t.txid, 0))
        = ((invoiceGen o initState).transactions.map Tx.txid).map fun x => (x, 0) := by
      rw [List.map_map]
      rfl
    rw [h2]
    refine h1.map ?_
    intro a b hab
    simpa using hab
  have hempty : (consolidationGen o (invoiceGen o initState)).utxosA = [] := by
    rw [consolidationGen_utxosA]
    refine List.filter_eq_nil_iff.2 ?_
    intro u hu
    have hmem : u.txid ∈ (invoiceGen o initState).utxosA.map Utxo.txid :=
      List.mem_map_of_mem Utxo.txid hu
    rw [invoiceGen_utxosA_txids] at hmem
    have hmem2 : u.txid ∈ (invoiceGen o initState).transactions.map Tx.txid :=
      (invoiceGen_txids_perm o).symm.mem_iff.1 hmem
    rcases List.mem_map.1 hmem2 with ⟨t, ht, htx⟩
    have href : (⟨t.txid, 0, t.satoshis, t.toAddress⟩ : URef)
        ∈ ((invoiceGen o initState).transactions.filter
            fun t => decide (t.wallet = some WTag.A)).map
          fun t => (⟨t.txid, 0, t.satoshis, t.toAddress⟩ : URef) := by
      rw [invoiceGen_filterA]
      exact List.mem_map_of_mem _ ht
    have href2 := (groupByPeriod_flatMap
        ((invoiceGen o initState).transactions)).symm.mem_iff.1 href
    rcases List.mem_flatMap.1 href2 with ⟨pr, hpr, hr⟩
    intro hall
    rw [List.all_eq_true] at hall
    have h3 := hall pr hpr
    rw [List.all_eq_true] at h3
    have h4 := h3 _ hr
    simp only [decide_eq_true_eq] at h4
    exact h4 htx
  have hrun : (runAll o).utxosA = [] :=
    ((congrArg SimState.utxosA (runAll_eq o)).trans
      (post_phases_utxosA o (consolidationGen o (invoiceGen o initState)))).trans hempty
  exact ⟨hempty, hrun, hperm, hperm.symm.nodup hnodup⟩

/-! ### Treasury UTXO structure across the phases (claim C1) -/

theorem addToGroup_keys (g : List (Nat × List URef)) (p : Nat) (r : URef) :
    (addToGroup g p r).map (·.1)
      = if p ∈ g.map (·.1) then g.map (·.1) else g.map (·.1) ++ [p] := by
  induction g with
  | nil => simp [addToGroup]
  | cons e rest ih =>
    by_cases h : e.1 = p
    · have hstep : addToGroup (e :: rest) p r = (e.1, e.2 ++ [r]) :: rest := by
        rcases e with ⟨q, rs⟩
        simp only [addToGroup]
        rw [if_pos h]
      rw [hstep]
      rw [if_pos (by simp [h])]
      simp
    · have hstep : addToGroup (e :: rest) p r = e :: addToGroup rest p r := by
        rcases e with ⟨q, rs⟩
        simp only [addToGroup]
        rw [if_neg h]
      rw [hstep]
      by_cases h2 : p ∈ rest.map (·.1)
      · rw [if_pos (by simp [h2])]
        simp only [List.map_cons, ih, if_pos h2]
      · rw [if_neg (by
          simp only [List.map_cons, List.mem_cons]
          push_neg
          exact ⟨fun he => h he.symm, h2⟩)]
        simp only [List.map_cons, ih, if_neg h2, List.cons_append]

theorem addToGroup_keys_nodup {g : List (Nat × List URef)} (p : Nat) (r : URef)
    (h : (g.map (·.1)).Nodup) : ((addToGroup g p r).map (·.1)).Nodup := by
  rw [addToGroup_keys]
  by_cases h2 : p ∈ g.map (·.1)
  · rw [if_pos h2]
    exact h
  · rw [if_neg h2]
    rw [List.nodup_append]
    refine ⟨h, List.nodup_singleton p, ?_⟩
    intro x hx hxp
    have hxp2 : x = p := by simpa using hxp
    exact h2 (hxp2 ▸ hx)

theorem groupByPeriod_keys_nodup (txs : List Tx) :
    ((groupByPeriod txs).map (·.1)).Nodup := by
  suffices h : ∀ g : List (Nat × List URef), (g.map (·.1)).Nodup →
      (((txs.foldl
          (fun g tx =>
            if tx.wallet = some WTag.A then
              addToGroup g (periodOf tx.date) ⟨tx.txid, 0, tx.satoshis, tx.toAddress⟩
            else g) g)).map (·.1)).Nodup by
    exact h [] (by simp)
  induction txs with
  | nil => intro g hg; simpa using hg
  | cons t ts ih =>
    intro g hg
    simp only [List.foldl_cons]
    by_cases h : t.wallet = some WTag.A
    · rw [if_pos h]
      exact ih _ (addToGroup_keys_nodup _ _ hg)
    · rw [if_neg h]
      exact ih _ hg

theorem consChunk_uB_pairs (o : Oracle) (p i : Nat) (st : ConsState) (chunk : List URef) :
    (consChunk o p i st chunk).uB.map uPair
      = st.uB.map uPair
        ++ (if chunk.isEmpty then [] else [((Txid.consolidation p i : Txid), 0)]) := by
  unfold consChunk
  by_cases h : chunk.isEmpty
  · rw [if_pos h, if_pos h]
    simp
  · rw [if_neg h, if_neg h]
    simp [uPair]

theorem consChunk_txid (o : Oracle) (p i : Nat) (st : ConsState) (chunk : List URef) :
    (consChunk o p i st chunk).txs.map Tx.txid
      = st.txs.map Tx.txid
        ++ (if chunk.isEmpty then [] else [(Txid.consolidation p i : Txid)]) := by
  unfold consChunk
  by_cases h : chunk.isEmpty
  · rw [if_pos h, if_pos h]
    simp
  · rw [if_neg h, if_neg h]
    simp

theorem chunkFold_uB_pairs (o : Oracle) (p : Nat) :
    ∀ (cs : List (Nat × List URef)) (st : ConsState),
      (cs.foldl (fun st ic => consChunk o p ic.1 st ic.2) st).uB.map uPair
        = st.uB.map uPair
          ++ (cs.filter fun ic => !ic.2.isEmpty).map
              fun ic => ((Txid.consolidation p ic.1 : Txid), 0) := by
  intro cs
  induction cs with
  | nil => intro st; simp
  | cons c cs ih =>
    intro st
    simp only [List.foldl_cons]
    rw [ih, consChunk_uB_pairs, List.filter_cons]
    by_cases h : c.2.isEmpty
    · rw [if_pos h, if_neg (by simp [h])]
      simp
    · rw [if_neg h, if_pos (by simp [h])]
      simp

theorem chunkFold_txid (o : Oracle) (p : Nat) :
    ∀ (cs : List (Nat × List URef)) (st : ConsState),
      (cs.foldl (fun st ic => consChunk o p ic.1 st ic.2) st).txs.map Tx.txid
        = st.txs.map Tx.txid
          ++ (cs.filter fun ic => !ic.2.isEmpty).map
              fun ic => (Txid.consolidation p ic.1 : Txid) := by
  intro cs
  induction cs with
  | nil => intro st; simp
  | cons c cs ih =>
    intro st
    simp only [List.foldl_cons]
    rw [ih, consChunk_txid, List.filter_cons]
    by_cases h : c.2.isEmpty
    · rw [if_pos h, if_neg (by simp [h])]
      simp
    · rw [if_neg h, if_pos (by simp [h])]
      simp

theorem consPeriod_uB_pairs (o : Oracle) (st : ConsState) (pr : Nat × List URef) :
    (consPeriod o st pr).uB.map uPair
      = st.uB.map uPair
        ++ (((arraySplit pr.2 (numConsolidations pr.1)).enum.filter
              fun ic => !ic.2.isEmpty).map
            fun ic => ((Txid.consolidation pr.1 ic.1 : Txid), 0)) := by
  unfold consPeriod
  rw [chunkFold_uB_pairs]

theorem groupsFold_uB_pairs (o : Oracle) :
    ∀ (G : List (Nat × List URef)) (st : ConsState),
      (G.foldl (consPeriod o) st).uB.map uPair
        = st.uB.map uPair
          ++ G.flatMap fun pr =>
              (((arraySplit pr.2 (numConsolidations pr.1)).enum.filter
                  fun ic => !ic.2.isEmpty).map
                fun ic => ((Txid.consolidation pr.1 ic.1 : Txid), 0)) := by
  intro G
  induction G with
  | nil => intro st; simp
  | cons pr G ih =>
    intro st
    simp only [List.foldl_cons, List.flatMap_cons]
    rw [ih, consPeriod_uB_pairs, List.append_assoc]

/-- The txid/index pairs minted into the treasury wallet by one period are
pairwise distinct. -/
theorem consPeriod_new_nodup (pr : Nat × List URef) :
    ((((arraySplit pr.2 (numConsolidations pr.1)).enum.filter
        fun ic => !ic.2.isEmpty).map
      fun ic => ((Txid.consolidation pr.1 ic.1 : Txid), 0)).Nodup) := by
  have h1 : (((arraySplit pr.2 (numConsolidations pr.1)).enum.filter
      fun ic => !ic.2.isEmpty).map Prod.fst).Nodup := by
    refine List.Sublist.nodup (List.Sublist.map Prod.fst (List.filter_sublist _)) ?_
    rw [show (arraySplit pr.2 (numConsolidations pr.1)).enum
        = List.enumFrom 0 (arraySplit pr.2 (numConsolidations pr.1)) from rfl]
    rw [List.enumFrom_map_fst]
    exact List.nodup_range' 0 _
  have h2 : (((arraySplit pr.2 (numConsolidations pr.1)).enum.filter
        fun ic => !ic.2.isEmpty).map
      fun ic => ((Txid.consolidation pr.1 ic.1 : Txid), 0))
      = (((arraySplit pr.2 (numConsolidations pr.1)).enum.filter
          fun ic => !ic.2.isEmpty).map Prod.fst).map
        fun i => ((Txid.consolidation pr.1 i : Txid), 0) := by
    rw [List.map_map]
    rfl
  rw [h2]
  refine h1.map ?_
  intro a b hab
  simpa using hab

/-- The txid/index pairs minted into the treasury wallet by the whole
consolidation phase are pairwise distinct. -/
theorem consNew_nodup (G : List (Nat × List URef)) (hkeys : (G.map (·.1)).Nodup) :
    (G.flatMap fun pr =>
        (((arraySplit pr.2 (numConsolidations pr.1)).enum.filter
            fun ic => !ic.2.isEmpty).map
          fun ic => ((Txid.consolidation pr.1 ic.1 : Txid), 0))).Nodup := by
  induction G with
  | nil => simp
  | cons pr G ih =>
    simp only [List.flatMap_cons]
    rw [List.nodup_append]
    have hkey2 : pr.1 ∉ G.map (·.1) ∧ (G.map (·.1)).Nodup := by
      rw [List.map_cons] at hkeys
      exact List.nodup_cons.1 hkeys
    refine ⟨consPeriod_new_nodup pr, ih hkey2.2, ?_⟩
    intro x hx hx2
    rcases List.mem_map.1 hx with ⟨ic, _, rfl⟩
    rcases List.mem_flatMap.1 hx2 with ⟨pr2, hpr2, hx3⟩
    rcases List.mem_map.1 hx3 with ⟨ic2, _, heq⟩
    simp only [Prod.mk.injEq] at heq
    injection heq.1 with hp _
    exact hkey2.1 (hp ▸ List.mem_map_of_mem (·.1) hpr2)

theorem consChunk_mem_txs (o : Oracle) (p i : Nat) (st : ConsState) (chunk : List URef)
    {t : Tx} (ht : t ∈ (consChunk o p i st chunk).txs) :
    t ∈ st.txs ∨ t.type = TxType.consolidation := by
  unfold consChunk at ht
  by_cases h : chunk.isEmpty
  · rw [if_pos h] at ht
    exact Or.inl ht
  · rw [if_neg h] at ht
    simp only [] at ht
    rcases List.mem_append.1 ht with h2 | h2
    · exact Or.inl h2
    · right
      rcases List.mem_singleton.1 h2 with rfl
      rfl

theorem chunkFold_mem_txs (o : Oracle) (p : Nat) :
    ∀ (cs : List (Nat × List URef)) (st : ConsState) {t : Tx},
      t ∈ (cs.foldl (fun st ic => consChunk o p ic.1 st ic.2) st).txs →
      t ∈ st.txs ∨ t.type = TxType.consolidation := by
  intro cs
  induction cs with
  | nil => intro st t ht; exact Or.inl ht
  | cons c cs ih =>
    intro st t ht
    simp only [List.foldl_cons] at ht
    rcases ih _ ht with h | h
    · exact consChunk_mem_txs o p c.1 st c.2 h
    · exact Or.inr h

theorem groupsFold_mem_txs (o : Oracle) :
    ∀ (G : List (Nat × List URef)) (st : ConsState) {t : Tx},
      t ∈ (G.foldl (consPeriod o) st).txs →
      t ∈ st.txs ∨ t.type = TxType.consolidation := by
  intro G
  induction G with
  | nil => intro st t ht; exact Or.inl ht
  | cons pr G ih =>
    intro st t ht
    simp only [List.foldl_cons] at ht
    rcases ih _ ht with h | h
    · exact chunkFold_mem_txs o pr.1 _ st h
    · exact Or.inr h

theorem consolidationGen_spentNew (o : Oracle) (s : SimState) :
    spentPairs (((groupByPeriod s.transactions).foldl (consPeriod o)
        ⟨[], s.utxosA, s.utxosB, maxHeight s.utxosA + 1⟩).txs)
      = (groupByPeriod s.transactions).flatMap
          fun pr => pr.2.map fun r => (r.txid, r.vout) := by
  have hall : (((groupByPeriod s.transactions).foldl (consPeriod o)
      ⟨[], s.utxosA, s.utxosB, maxHeight s.utxosA + 1⟩).txs).filter
        (fun t => decide (t.type = TxType.consolidation))
      = ((groupByPeriod s.transactions).foldl (consPeriod o)
        ⟨[], s.utxosA, s.utxosB, maxHeight s.utxosA + 1⟩).txs := by
    refine List.filter_eq_self.2 ?_
    intro t ht
    rcases groupsFold_mem_txs o _ _ ht with h | h
    · cases h
    · simpa using h
  have h2 := groupsFold_consInputs o (groupByPeriod s.transactions)
    ⟨[], s.utxosA, s.utxosB, maxHeight s.utxosA + 1⟩
  rw [hall] at h2
  unfold spentPairs
  rw [h2]
  simp

theorem consolidationGen_uB_pairs (o : Oracle) (s : SimState) :
    (consolidationGen o s).utxosB.map uPair
      = s.utxosB.map uPair
        ++ (groupByPeriod s.transactions).flatMap fun pr =>
            (((arraySplit pr.2 (numConsolidations pr.1)).enum.filter
                fun ic => !ic.2.isEmpty).map
              fun ic => ((Txid.consolidation pr.1 ic.1 : Txid), 0)) := by
  unfold consolidationGen
  simp only []
  rw [groupsFold_uB_pairs]

theorem invoiceGen_utxosB (o : Oracle) (s : SimState) :
    (invoiceGen o s).utxosB = s.utxosB := rfl

theorem invoiceGen_utxosC (o : Oracle) (s : SimState) :
    (invoiceGen o s).utxosC = s.utxosC := rfl

theorem consolidationGen_utxosC (o : Oracle) (s : SimState) :
    (consolidationGen o s).utxosC = s.utxosC := rfl

theorem pairOk_mono {i j : Nat} (hij : i ≤ j) :
    ∀ {pr : Txid × Nat}, pairOk i pr → pairOk j pr := by
  intro pr h
  rcases pr with ⟨t, v⟩
  cases t <;> simp [pairOk] at h ⊢ <;> try exact h
  exact ⟨by omega, h.2⟩

theorem selectForAmount_take (uB : List Utxo) (target : Int) :
    ∃ m, (selectForAmount uB target).1 = (sortDesc uB).take m := by
  rcases selectLoop_spec target (sortDesc uB) [] 0 with ⟨m, _, _, _, _, heq⟩ | ⟨_, heq⟩
  · refine ⟨m, ?_⟩
    unfold selectForAmount
    rw [heq]
    simp
  · refine ⟨(sortDesc uB).length, ?_⟩
    unfold selectForAmount
    rw [heq]
    simp

theorem outgoingStep_skip (o : Oracle) (s : OutState) (i : Nat)
    (h : (selectForAmount s.uB (o.outSat i)).2 < o.outSat i) :
    outgoingStep o s i = s := by
  simp only [outgoingStep]
  rw [if_pos h]

theorem outgoingStep_emit (o : Oracle) (s : OutState) (i : Nat)
    (h : ¬ (selectForAmount s.uB (o.outSat i)).2 < o.outSat i) :
    outgoingStep o s i =
      ⟨s.txs ++ [{ txid := Txid.treasuryOutgoing i, date := outgoingDate o i,
                   blockHeight := s.height,
                   inputs := (selectForAmount s.uB (o.outSat i)).1.map
                     (fun u => (u.txid, u.vout)),
                   satoshis := o.outSat i, toAddress := Addr.externalRecipient i,
                   wallet := none, walletFrom := some .B, walletTo := some .external,
                   type := .treasuryOutgoing }],
        (if 0 < (selectForAmount s.uB (o.outSat i)).2 - o.outSat i
          then (s.uB.filter fun u => (selectForAmount s.uB (o.outSat i)).1.all
                fun v => decide (v.txid ≠ u.txid))
            ++ [⟨Txid.treasuryOutgoing i, 1, (selectForAmount s.uB (o.outSat i)).2 - o.outSat i,
                choice walletBAddresses (o.outAddr i), s.height⟩]
          else s.uB.filter fun u => (selectForAmount s.uB (o.outSat i)).1.all
                fun v => decide (v.txid ≠ u.txid)),
        s.height + o.outInc i⟩ := by
  simp only [outgoingStep]
  rw [if_neg h]

theorem spentPairs_append (a b : List Tx) :
    spentPairs (a ++ b) = spentPairs a ++ spentPairs b := by
  unfold spentPairs
  exact List.flatMap_append a b Tx.inputs

theorem spentPairs_singleton (t : Tx) : spentPairs [t] = t.inputs := by
  simp [spentPairs]

theorem spentPairs_cons (t : Tx) (l : List Tx) :
    spentPairs (t :: l) = t.inputs ++ spentPairs l := by
  simp [spentPairs]

/-- Invoice transactions record no inputs, so the invoice phase spends
nothing. -/
theorem invoiceGen_spent (o : Oracle) :
    spentPairs (invoiceGen o initState).transactions = [] := by
  unfold spentPairs
  refine List.flatMap_eq_nil_iff.2 ?_
  intro t ht
  exact (invoiceGen_shape o t ht).2.2.1

/-- After the consolidation phase, the whole log's spent pairs are exactly
the consolidation inputs: pairwise distinct, and each one an invoice txid at
output index 0. -/
theorem consGen_spent_facts (o : Oracle) :
    (spentPairs (consolidationGen o (invoiceGen o initState)).transactions).Nodup
    ∧ ∀ p ∈ spentPairs (consolidationGen o (invoiceGen o initState)).transactions,
        ∃ i, p = ((Txid.invoice i : Txid), (0 : Nat)) := by
  have hdec : spentPairs (consolidationGen o (invoiceGen o initState)).transactions
      = spentPairs (((groupByPeriod (invoiceGen o initState).transactions).foldl (consPeriod o)
          ⟨[], (invoiceGen o initState).utxosA, (invoiceGen o initState).utxosB,
            maxHeight (invoiceGen o initState).utxosA + 1⟩).txs) := by
    rw [consolidationGen_transactions, spentPairs_append, invoiceGen_spent, List.nil_append]
  have hperm : (spentPairs (((groupByPeriod (invoiceGen o initState).transactions).foldl
        (consPeriod o)
        ⟨[], (invoiceGen o initState).utxosA, (invoiceGen o initState).utxosB,
          maxHeight (invoiceGen o initState).utxosA + 1⟩).txs)).Perm
      ((invoiceGen o initState).transactions.map fun t => (t.txid, 0)) := by
    rw [consolidationGen_spentNew o (invoiceGen o initState), join_map_snd]
    refine ((groupByPeriod_flatMap _).map _).trans ?_
    rw [invoiceGen_filterA, List.map_map]
    apply List.Perm.of_eq
    apply List.map_congr_left
    intro t _
    rfl
  have htgt : (((invoiceGen o initState).transactions.map fun t => (t.txid, 0))).Nodup := by
    have h1 := invoiceGen_txids_nodup o
    have h2 : ((invoiceGen o initState).transactions.map fun t => (t.txid, 0))
        = ((invoiceGen o initState).transactions.map Tx.txid).map fun x => (x, 0) := by
      rw [List.map_map]
      rfl
    rw [h2]
    refine h1.map ?_
    intro a b hab
    simpa using hab
  constructor
  · rw [hdec]
    exact hperm.symm.nodup htgt
  · intro p hp
    rw [hdec] at hp
    have hp2 := hperm.mem_iff.1 hp
    rcases List.mem_map.1 hp2 with ⟨t, ht, rfl⟩
    rcases (invoiceGen_shape o t ht).2.2.2.2 with ⟨i, _, htx⟩
    exact ⟨i, by rw [htx]⟩

/-- After the consolidation phase the treasury wallet's pairs are pairwise
distinct and every UTXO carries a consolidation txid (for any run whose
treasury wallet started empty). -/
theorem consGen_uB_facts (o : Oracle) (s : SimState) (hB : s.utxosB = []) :
    ((consolidationGen o s).utxosB.map uPair).Nodup
    ∧ ∀ u ∈ (consolidationGen o s).utxosB,
        ∃ p i, u.txid = Txid.consolidation p i := by
  have hpairs := consolidationGen_uB_pairs o s
  rw [hB] at hpairs
  simp only [List.map_nil, List.nil_append] at hpairs
  constructor
  · rw [hpairs]
    exact consNew_nodup _ (groupByPeriod_keys_nodup _)
  · intro u hu
    have hmem : uPair u ∈ (consolidationGen o s).utxosB.map uPair :=
      List.mem_map_of_mem uPair hu
    rw [hpairs] at hmem
    rcases List.mem_flatMap.1 hmem with ⟨pr, _, hx⟩
    rcases List.mem_map.1 hx with ⟨ic, _, heq⟩
    refine ⟨pr.1, ic.1, ?_⟩
    have h1 : u.txid = (uPair u).1 := rfl
    rw [h1, ← heq]

theorem flatten_pair_singletons (g : Nat → Txid) :
    ∀ l : List Nat,
      ((l.map fun i => [((g i : Txid), (0 : Nat))]).flatten)
        = l.map fun i => ((g i : Txid), (0 : Nat)) := by
  intro l
  induction l with
  | nil => rfl
  | cons a l ih =>
    simp only [List.map_cons, List.flatten_cons, ih, List.singleton_append]

/-- The spent pairs of the vendor-payment chain started from a single
checking UTXO: the chained txids, each at output index 0. -/
theorem vendorLoop_spent (o : Oracle) (u : Utxo) (h n : Nat) :
    spentPairs (vendorLoop o [u] h n).txs
      = (List.range n).map
          fun i => ((if i = 0 then u.txid else Txid.vendorPayment (i - 1)), (0 : Nat)) := by
  rcases vendorLoop_spec o u h n with ⟨u2, _, _, _, hinp, _⟩
  unfold spentPairs
  rw [List.flatMap_def, hinp]
  exact flatten_pair_singletons
    (fun i => if i = 0 then u.txid else Txid.vendorPayment (i - 1)) (List.range n)

/-- The vendor chain's spent pairs are pairwise distinct. -/
theorem vendor_pairs_nodup (n : Nat) :
    ((List.range n).map fun i =>
        ((if i = 0 then Txid.treasuryToChecking else Txid.vendorPayment (i - 1)),
          (0 : Nat))).Nodup := by
  refine List.Nodup.map_on ?_ (List.nodup_range n)
  intro a ha b hb heq
  rw [Prod.mk.injEq] at heq
  replace heq := heq.1
  by_cases ha0 : a = 0 <;> by_cases hb0 : b = 0
  · omega
  · rw [if_pos ha0, if_neg hb0] at heq
    injection heq
  · rw [if_neg ha0, if_pos hb0] at heq
    injection heq
  · rw [if_neg ha0, if_neg hb0] at heq
    injection heq with h2
    omega

/-- Appending a UTXO whose pair is fresh preserves distinctness of pairs. -/
theorem pairs_nodup_append (L : List Utxo) (u : Utxo)
    (hnd : (L.map uPair).Nodup) (hnew : uPair u ∉ L.map uPair) :
    ((L ++ [u]).map uPair).Nodup := by
  rw [List.map_append]
  rw [List.nodup_append]
  refine ⟨hnd, List.nodup_singleton _, ?_⟩
  intro x hx hx2
  have hxu : x = uPair u := by simpa using hx2
  exact hnew (hxu ▸ hx)

/-- The transfer always appends exactly one fresh checking UTXO. -/
theorem transferStep_uC (uB uC : List Utxo) (h0 : Nat) :
    (transferStep uB uC h0).uC
      = uC ++ [⟨Txid.treasuryToChecking, 0, COIN, walletCAddresses.getD 0 default, h0⟩] := rfl

/-- The transfer spends exactly one pair: a consolidation output when the
treasury holds one of amount at least 1 BTC (assuming all treasury txids are
consolidations), else the fabricated dummy UTXO; the spent txid is removed
from the treasury wallet. -/
theorem transferStep_spent (uB uC : List Utxo) (h0 : Nat)
    (hcons : ∀ u ∈ uB, ∃ p i, u.txid = Txid.consolidation p i) :
    ∃ q : Txid × Nat,
      (transferStep uB uC h0).tx.inputs = [q]
      ∧ ((∃ p i, q.1 = Txid.consolidation p i) ∨ q.1 = Txid.dummyLargeTreasuryUtxo)
      ∧ (∀ u ∈ (transferStep uB uC h0).uB, u.txid ≠ q.1) := by
  cases hf : uB.find? (fun u => decide (COIN ≤ u.amount)) with
  | none =>
    rw [transferStep_notfound uB uC h0 hf]
    refine ⟨(Txid.dummyLargeTreasuryUtxo, 0), rfl, Or.inr rfl, ?_⟩
    intro u hu
    have h2 := (List.mem_filter.1 hu).2
    simpa using h2
  | some tu =>
    rw [transferStep_found uB uC h0 tu hf]
    refine ⟨(tu.txid, tu.vout), rfl, ?_, ?_⟩
    · exact Or.inl (hcons tu (List.mem_of_find?_eq_some hf))
    · intro u hu
      have h2 := (List.mem_filter.1 hu).2
      simpa using h2

/-- The transfer keeps the treasury pairs pairwise distinct, every remaining
UTXO satisfying the outgoing-loop entry invariant. -/
theorem transferStep_uB_facts (uB uC : List Utxo) (h0 : Nat)
    (hnd : (uB.map uPair).Nodup)
    (hcons : ∀ u ∈ uB, ∃ p i, u.txid = Txid.consolidation p i) :
    ((transferStep uB uC h0).uB.map uPair).Nodup
    ∧ ∀ u ∈ (transferStep uB uC h0).uB, pairOk 0 (uPair u) := by
  have hokB : ∀ u ∈ uB, pairOk 0 (uPair u) := by
    intro u hu
    rcases hcons u hu with ⟨p, i, htx⟩
    have h1 : uPair u = (u.txid, u.vout) := rfl
    rw [h1, htx]
    trivial
  have hno_t2c : ∀ u ∈ uB, uPair u ≠ ((Txid.treasuryToChecking : Txid), (1 : Nat)) := by
    intro u hu heq
    rcases hcons u hu with ⟨p, i, htx⟩
    have h1 : u.txid = Txid.treasuryToChecking := congrArg Prod.fst heq
    rw [htx] at h1
    injection h1
  have hno_dummy : ∀ u ∈ uB, uPair u ≠ ((Txid.dummyLargeTreasuryUtxo : Txid), (0 : Nat)) := by
    intro u hu heq
    rcases hcons u hu with ⟨p, i, htx⟩
    have h1 : u.txid = Txid.dummyLargeTreasuryUtxo := congrArg Prod.fst heq
    rw [htx] at h1
    injection h1
  cases hf : uB.find? (fun u => decide (COIN ≤ u.amount)) with
  | none =>
    rw [transferStep_notfound uB uC h0 hf]
    have h2 : (0 : Int) < 2 * COIN - COIN := by norm_num [COIN]
    rw [if_pos h2]
    have hd_nodup : (((uB ++ [(⟨Txid.dummyLargeTreasuryUtxo, 0, 2 * COIN,
        walletBAddresses.getD 0 default, h0 - 10⟩ : Utxo)]) : List Utxo).map uPair).Nodup := by
      refine pairs_nodup_append uB _ hnd ?_
      intro hmem
      rcases List.mem_map.1 hmem with ⟨u, hu, hup⟩
      exact hno_dummy u hu hup
    have hda_nodup : ((((uB ++ [(⟨Txid.dummyLargeTreasuryUtxo, 0, 2 * COIN,
        walletBAddresses.getD 0 default, h0 - 10⟩ : Utxo)])
          ++ [(⟨Txid.treasuryToChecking, 1, 2 * COIN - COIN,
              walletBAddresses.getD 0 default, h0⟩ : Utxo)]) : List Utxo).map uPair).Nodup := by
      refine pairs_nodup_append _ _ hd_nodup ?_
      intro hmem
      rcases List.mem_map.1 hmem with ⟨u, hu, hup⟩
      rcases List.mem_append.1 hu with hu2 | hu2
      · exact hno_t2c u hu2 hup
      · rcases List.mem_singleton.1 hu2 with rfl
        cases hup
    constructor
    · exact List.Sublist.nodup (List.Sublist.map uPair (List.filter_sublist _)) hda_nodup
    · intro u hu
      have humem := (List.mem_filter.1 hu).1
      rcases List.mem_append.1 humem with hu2 | hu2
      · rcases List.mem_append.1 hu2 with hu3 | hu3
        · exact hokB u hu3
        · rcases List.mem_singleton.1 hu3 with rfl
          trivial
      · rcases List.mem_singleton.1 hu2 with rfl
        have h3 : (1 : Nat) = 1 := rfl
        exact h3
  | some tu =>
    rw [transferStep_found uB uC h0 tu hf]
    by_cases hch : 0 < tu.amount - COIN
    · rw [if_pos hch]
      have hc_nodup : (((uB ++ [(⟨Txid.treasuryToChecking, 1, tu.amount - COIN,
          tu.address, h0⟩ : Utxo)]) : List Utxo).map uPair).Nodup := by
        refine pairs_nodup_append uB _ hnd ?_
        intro hmem
        rcases List.mem_map.1 hmem with ⟨u, hu, hup⟩
        exact hno_t2c u hu hup
      constructor
      · exact List.Sublist.nodup (List.Sublist.map uPair (List.filter_sublist _)) hc_nodup
      · intro u hu
        have humem := (List.mem_filter.1 hu).1
        rcases List.mem_append.1 humem with hu2 | hu2
        · exact hokB u hu2
        · rcases List.mem_singleton.1 hu2 with rfl
          have h3 : (1 : Nat) = 1 := rfl
          exact h3
    · rw [if_neg hch]
      constructor
      · exact List.Sublist.nodup (List.Sublist.map uPair (List.filter_sublist _)) hnd
      · intro u hu
        exact hokB u (List.mem_filter.1 hu).1

theorem checkingGen_transactions (o : Oracle) (s : SimState) :
    (checkingGen o s).transactions
      = s.transactions
        ++ ((transferStep s.utxosB s.utxosC (maxHeight s.utxosB + 1)).tx
            :: (vendorLoop o (transferStep s.utxosB s.utxosC (maxHeight s.utxosB + 1)).uC
                (maxHeight s.utxosB + 1 + o.transInc) 20).txs) := rfl

theorem checkingGen_utxosB (o : Oracle) (s : SimState) :
    (checkingGen o s).utxosB
      = (transferStep s.utxosB s.utxosC (maxHeight s.utxosB + 1)).uB := rfl

theorem specialGen_transactions (o : Oracle) (s : SimState) :
    (specialGen o s).transactions
      = s.transactions
        ++ (iter (incomingStep o)
            (iter (outgoingStep o)
              ⟨[], s.utxosB, max (maxHeight s.utxosB) (maxHeight s.utxosC) + 1⟩ 5) 2).txs := rfl

theorem incomingStep_spent (o : Oracle) (s : OutState) (i : Nat) :
    spentPairs (incomingStep o s i).txs
      = spentPairs s.txs ++ [((Txid.externalSource i : Txid), (0 : Nat))] := by
  simp [incomingStep, spentPairs]

/-- The two incoming payments spend the two external-source references. -/
theorem incomingIter_spent (o : Oracle) (s : OutState) :
    spentPairs (iter (incomingStep o) s 2).txs
      = spentPairs s.txs
        ++ [((Txid.externalSource 0 : Txid), (0 : Nat)),
            ((Txid.externalSource 1 : Txid), (0 : Nat))] := by
  have h2 : iter (incomingStep o) s 2 = incomingStep o (incomingStep o s 0) 1 := rfl
  rw [h2, incomingStep_spent, incomingStep_spent, List.append_assoc]
  rfl

theorem outgoingStep_emit_spent (o : Oracle) (s : OutState) (i : Nat)
    (h : ¬ (selectForAmount s.uB (o.outSat i)).2 < o.outSat i) :
    spentPairs (outgoingStep o s i).txs
      = spentPairs s.txs ++ (selectForAmount s.uB (o.outSat i)).1.map uPair := by
  rw [outgoingStep_emit o s i h, spentPairs_append, spentPairs_singleton]
  rfl

theorem outgoingStep_emit_uB (o : Oracle) (s : OutState) (i : Nat)
    (h : ¬ (selectForAmount s.uB (o.outSat i)).2 < o.outSat i) :
    (outgoingStep o s i).uB
      = (if 0 < (selectForAmount s.uB (o.outSat i)).2 - o.outSat i
          then (s.uB.filter fun u => (selectForAmount s.uB (o.outSat i)).1.all
                fun v => decide (v.txid ≠ u.txid))
            ++ [⟨Txid.treasuryOutgoing i, 1, (selectForAmount s.uB (o.outSat i)).2 - o.outSat i,
                choice walletBAddresses (o.outAddr i), s.height⟩]
          else s.uB.filter fun u => (selectForAmount s.uB (o.outSat i)).1.all
                fun v => decide (v.txid ≠ u.txid)) := by
  rw [outgoingStep_emit o s i h]

/-- The selected UTXOs of a greedy selection have pairwise distinct pairs,
all drawn from the wallet, provided the wallet's pairs are distinct. -/
theorem selectForAmount_sub_pairs (uB : List Utxo) (target : Int)
    (hnd : (uB.map uPair).Nodup) :
    ((selectForAmount uB target).1.map uPair).Nodup
    ∧ ∀ p ∈ (selectForAmount uB target).1.map uPair, p ∈ uB.map uPair := by
  rcases selectForAmount_take uB target with ⟨m, hm⟩
  rw [hm]
  have hperm : ((sortDesc uB).map uPair).Perm (uB.map uPair) :=
    (stableSort_perm _ uB).map uPair
  constructor
  · refine List.Sublist.nodup (List.Sublist.map uPair (List.take_sublist m _)) ?_
    exact hperm.symm.nodup hnd
  · intro p hp
    have hp2 : p ∈ (sortDesc uB).map uPair :=
      (List.Sublist.map uPair (List.take_sublist m _)).subset hp
    exact hperm.mem_iff.1 hp2

/-- Invariant of the special-treasury outgoing loop: the treasury pairs stay
pairwise distinct and within the allowed classification, the spent pairs are
pairwise distinct, classified, disjoint from the live wallet, and originate
in the loop's initial wallet or in change of earlier outgoing payments. -/
theorem outgoingLoop_inv (o : Oracle) (uB0 : List Utxo) (h0 : Nat)
    (hnd : (uB0.map uPair).Nodup)
    (hok : ∀ u ∈ uB0, pairOk 0 (uPair u)) :
    ∀ n : Nat,
      ((iter (outgoingStep o) ⟨[], uB0, h0⟩ n).uB.map uPair).Nodup
      ∧ (∀ u ∈ (iter (outgoingStep o) ⟨[], uB0, h0⟩ n).uB, pairOk n (uPair u))
      ∧ (∀ u ∈ (iter (outgoingStep o) ⟨[], uB0, h0⟩ n).uB,
          u.txid ∈ uB0.map Utxo.txid ∨ ∃ k, u.txid = Txid.treasuryOutgoing k)
      ∧ (spentPairs (iter (outgoingStep o) ⟨[], uB0, h0⟩ n).txs).Nodup
      ∧ (∀ p ∈ spentPairs (iter (outgoingStep o) ⟨[], uB0, h0⟩ n).txs, pairOk n p)
      ∧ (∀ p ∈ spentPairs (iter (outgoingStep o) ⟨[], uB0, h0⟩ n).txs,
          p ∉ (iter (outgoingStep o) ⟨[], uB0, h0⟩ n).uB.map uPair)
      ∧ (∀ p ∈ spentPairs (iter (outgoingStep o) ⟨[], uB0, h0⟩ n).txs,
          p.1 ∈ uB0.map Utxo.txid ∨ ∃ k, p.1 = Txid.treasuryOutgoing k) := by
  intro n
  induction n with
  | zero =>
    have htxs : spentPairs (iter (outgoingStep o) ⟨[], uB0, h0⟩ 0).txs = [] := rfl
    refine ⟨hnd, hok, ?_, ?_, ?_, ?_, ?_⟩
    · intro u hu
      exact Or.inl (List.mem_map_of_mem Utxo.txid hu)
    · rw [htxs]
      exact List.nodup_nil
    · intro p hp
      rw [htxs] at hp
      cases hp
    · intro p hp
      rw [htxs] at hp
      cases hp
    · intro p hp
      rw [htxs] at hp
      cases hp
  | succ n ih =>
    have hstep : iter (outgoingStep o) ⟨[], uB0, h0⟩ (n + 1)
        = outgoingStep o (iter (outgoingStep o) ⟨[], uB0, h0⟩ n) n := rfl
    rw [hstep]
    revert ih
    generalize iter (outgoingStep o) ⟨[], uB0, h0⟩ n = s
    intro ih
    obtain ⟨i1, i2, i3, i4, i5, i6, i7⟩ := ih
    by_cases hc : (selectForAmount s.uB (o.outSat n)).2 < o.outSat n
    · rw [outgoingStep_skip o s n hc]
      exact ⟨i1, fun u hu => pairOk_mono (Nat.le_succ n) (i2 u hu), i3, i4,
        fun p hp => pairOk_mono (Nat.le_succ n) (i5 p hp), i6, i7⟩
    · rw [outgoingStep_emit_spent o s n hc, outgoingStep_emit_uB o s n hc]
      obtain ⟨hselN, hselSub⟩ := selectForAmount_sub_pairs s.uB (o.outSat n) i1
      set sel := (selectForAmount s.uB (o.outSat n)).1 with hsel
      set F := s.uB.filter (fun u => sel.all fun v => decide (v.txid ≠ u.txid)) with hF
      set c : Utxo := ⟨Txid.treasuryOutgoing n, 1,
        (selectForAmount s.uB (o.outSat n)).2 - o.outSat n,
        choice walletBAddresses (o.outAddr n), s.height⟩ with hc2
      have hFsub : ∀ u ∈ F, u ∈ s.uB := by
        intro u hu
        rw [hF] at hu
        exact (List.mem_filter.1 hu).1
      have hFnotsel : ∀ u ∈ F, ∀ v ∈ sel, v.txid ≠ u.txid := by
        intro u hu v hv
        rw [hF] at hu
        have h2 := (List.mem_filter.1 hu).2
        have h3 := List.all_eq_true.1 h2 v hv
        exact of_decide_eq_true h3
      have hFnodup : (F.map uPair).Nodup := by
        rw [hF]
        exact List.Sublist.nodup (List.Sublist.map uPair (List.filter_sublist _)) i1
      have hcpair : uPair c = ((Txid.treasuryOutgoing n : Txid), (1 : Nat)) := rfl
      have hcnotin : uPair c ∉ F.map uPair := by
        intro hmem
        rcases List.mem_map.1 hmem with ⟨u, hu, hup⟩
        have hpo := i2 u (hFsub u hu)
        rw [hup, hcpair] at hpo
        have h4 : n < n ∧ 1 = 1 := hpo
        exact absurd h4.1 (lt_irrefl n)
      have hselOk : ∀ p ∈ sel.map uPair, pairOk n p := by
        intro p hp
        rcases List.mem_map.1 (hselSub p hp) with ⟨u, hu, rfl⟩
        exact i2 u hu
      have hselOrigin : ∀ p ∈ sel.map uPair,
          p.1 ∈ uB0.map Utxo.txid ∨ ∃ k, p.1 = Txid.treasuryOutgoing k := by
        intro p hp
        rcases List.mem_map.1 (hselSub p hp) with ⟨u, hu, rfl⟩
        exact i3 u hu
      have hselNotTOutN : ∀ p ∈ sel.map uPair,
          p ≠ ((Txid.treasuryOutgoing n : Txid), (1 : Nat)) := by
        intro p hp heq
        have h5 := hselOk p hp
        rw [heq] at h5
        have h6 : n < n ∧ 1 = 1 := h5
        exact absurd h6.1 (lt_irrefl n)
      have hspentNotTOutN : ∀ p ∈ spentPairs s.txs,
          p ≠ ((Txid.treasuryOutgoing n : Txid), (1 : Nat)) := by
        intro p hp heq
        have h5 := i5 p hp
        rw [heq] at h5
        have h6 : n < n ∧ 1 = 1 := h5
        exact absurd h6.1 (lt_irrefl n)
      by_cases hch : 0 < (selectForAmount s.uB (o.outSat n)).2 - o.outSat n
      · rw [if_pos hch]
        refine ⟨?_, ?_, ?_, ?_, ?_, ?_, ?_⟩
        · exact pairs_nodup_append F c hFnodup hcnotin
        · intro u hu
          rcases List.mem_append.1 hu with hu2 | hu2
          · exact pairOk_mono (Nat.le_succ n) (i2 u (hFsub u hu2))
          · rcases List.mem_singleton.1 hu2 with rfl
            have h7 : n < n + 1 ∧ 1 = 1 := ⟨Nat.lt_succ_self n, rfl⟩
            exact h7
        · intro u hu
          rcases List.mem_append.1 hu with hu2 | hu2
          · exact i3 u (hFsub u hu2)
          · rcases List.mem_singleton.1 hu2 with rfl
            exact Or.inr ⟨n, rfl⟩
        · rw [List.nodup_append]
          refine ⟨i4, hselN, ?_⟩
          intro p hp hp2
          exact i6 p hp (hselSub p hp2)
        · intro p hp
          rcases List.mem_append.1 hp with hp2 | hp2
          · exact pairOk_mono (Nat.le_succ n) (i5 p hp2)
          · exact pairOk_mono (Nat.le_succ n) (hselOk p hp2)
        · intro p hp hmem
          rw [List.map_append] at hmem
          rcases List.mem_append.1 hmem with hm | hm
          · rcases List.mem_map.1 hm with ⟨u, hu, hup⟩
            rcases List.mem_append.1 hp with hp2 | hp2
            · have h10 : p ∈ s.uB.map uPair := by
                rw [← hup]
                exact List.mem_map_of_mem uPair (hFsub u hu)
              exact i6 p hp2 h10
            · rcases List.mem_map.1 hp2 with ⟨v, hv, hvp⟩
              refine absurd ?_ (hFnotsel u hu v hv)
              have h9 : (uPair v).1 = (uPair u).1 := by rw [hvp, hup]
              exact h9
          · have hpc : p = ((Txid.treasuryOutgoing n : Txid), (1 : Nat)) := by
              have h8 : p = uPair c := by simpa using hm
              rw [h8, hcpair]
            rcases List.mem_append.1 hp with hp2 | hp2
            · exact hspentNotTOutN p hp2 hpc
            · exact hselNotTOutN p hp2 hpc
        · intro p hp
          rcases List.mem_append.1 hp with hp2 | hp2
          · exact i7 p hp2
          · exact hselOrigin p hp2
      · rw [if_neg hch]
        refine ⟨hFnodup, ?_, ?_, ?_, ?_, ?_, ?_⟩
        · intro u hu
          exact pairOk_mono (Nat.le_succ n) (i2 u (hFsub u hu))
        · intro u hu
          exact i3 u (hFsub u hu)
        · rw [List.nodup_append]
          refine ⟨i4, hselN, ?_⟩
          intro p hp hp2
          exact i6 p hp (hselSub p hp2)
        · intro p hp
          rcases List.mem_append.1 hp with hp2 | hp2
          · exact pairOk_mono (Nat.le_succ n) (i5 p hp2)
          · exact pairOk_mono (Nat.le_succ n) (hselOk p hp2)
        · intro p hp hmem
          rcases List.mem_map.1 hmem with ⟨u, hu, hup⟩
          rcases List.mem_append.1 hp with hp2 | hp2
          · have h10 : p ∈ s.uB.map uPair := by
              rw [← hup]
              exact List.mem_map_of_mem uPair (hFsub u hu)
            exact i6 p hp2 h10
          · rcases List.mem_map.1 hp2 with ⟨v, hv, hvp⟩
            refine absurd ?_ (hFnotsel u hu v hv)
            have h9 : (uPair v).1 = (uPair u).1 := by rw [hvp, hup]
            exact h9
        · intro p hp
          rcases List.mem_append.1 hp with hp2 | hp2
          · exact i7 p hp2
          · exact hselOrigin p hp2

/-- Spent pairs of the transfer + vendor phase: one transfer input (a
consolidation output, or the dummy, whose txid is then absent from the
treasury wallet) followed by the 20-link vendor chain. -/
theorem checkingGen_spent (o : Oracle) (s : SimState)
    (hC : s.utxosC = [])
    (hcons : ∀ u ∈ s.utxosB, ∃ p i, u.txid = Txid.consolidation p i) :
    ∃ q : Txid × Nat,
      spentPairs (checkingGen o s).transactions
        = spentPairs s.transactions
          ++ (q :: (List.range 20).map
              fun i => ((if i = 0 then Txid.treasuryToChecking
                          else Txid.vendorPayment (i - 1)), (0 : Nat)))
      ∧ ((∃ p i, q.1 = Txid.consolidation p i) ∨ q.1 = Txid.dummyLargeTreasuryUtxo)
      ∧ (∀ u ∈ (checkingGen o s).utxosB, u.txid ≠ q.1) := by
  rcases transferStep_spent s.utxosB s.utxosC (maxHeight s.utxosB + 1) hcons
    with ⟨q, hq, hqs, hqB⟩
  have huC : (transferStep s.utxosB s.utxosC (maxHeight s.utxosB + 1)).uC
      = [⟨Txid.treasuryToChecking, 0, COIN, walletCAddresses.getD 0 default,
          maxHeight s.utxosB + 1⟩] := by
    rw [transferStep_uC, hC, List.nil_append]
  refine ⟨q, ?_, hqs, ?_⟩
  · rw [checkingGen_transactions, spentPairs_append, spentPairs_cons, hq, huC,
      vendorLoop_spent, List.singleton_append]
  · intro u hu
    rw [checkingGen_utxosB] at hu
    exact hqB u hu

/-- Spent pairs of the whole special-treasury phase: the outgoing loop's
spent pairs followed by the two external-source references. -/
theorem specialGen_spent (o : Oracle) (s : SimState)
    (hnd : (s.utxosB.map uPair).Nodup)
    (hok : ∀ u ∈ s.utxosB, pairOk 0 (uPair u)) :
    ∃ P : List (Txid × Nat),
      spentPairs (specialGen o s).transactions
        = spentPairs s.transactions
          ++ (P ++ [((Txid.externalSource 0 : Txid), (0 : Nat)),
                    ((Txid.externalSource 1 : Txid), (0 : Nat))])
      ∧ P.Nodup
      ∧ (∀ p ∈ P, pairOk 5 p)
      ∧ (∀ p ∈ P, p.1 ∈ s.utxosB.map Utxo.txid ∨ ∃ k, p.1 = Txid.treasuryOutgoing k) := by
  obtain ⟨_, _, _, j4, j5, _, j7⟩ :=
    outgoingLoop_inv o s.utxosB (max (maxHeight s.utxosB) (maxHeight s.utxosC) + 1) hnd hok 5
  refine ⟨spentPairs (iter (outgoingStep o)
      ⟨[], s.utxosB, max (maxHeight s.utxosB) (maxHeight s.utxosC) + 1⟩ 5).txs,
    ?_, j4, j5, j7⟩
  rw [specialGen_transactions, spentPairs_append, incomingIter_spent]

/-- Assembling the per-phase spent-pair classifications: the concatenated
spent list of a full run is pairwise distinct. -/
theorem spent_assemble
    (Pc Po : List (Txid × Nat)) (q : Txid × Nat)
    (hPc : Pc.Nodup)
    (hPcinv : ∀ p ∈ Pc, ∃ i, p = ((Txid.invoice i : Txid), (0 : Nat)))
    (hq : (∃ p i, q.1 = Txid.consolidation p i) ∨ q.1 = Txid.dummyLargeTreasuryUtxo)
    (hPo : Po.Nodup)
    (hPok : ∀ p ∈ Po, pairOk 5 p)
    (hPoq : ∀ p ∈ Po, p.1 ≠ q.1) :
    ((Pc ++ (q :: (List.range 20).map
        fun i => ((if i = 0 then Txid.treasuryToChecking
                    else Txid.vendorPayment (i - 1)), (0 : Nat))))
      ++ (Po ++ [((Txid.externalSource 0 : Txid), (0 : Nat)),
                 ((Txid.externalSource 1 : Txid), (0 : Nat))])).Nodup := by
  have hVinv : ∀ p ∈ (List.range 20).map
      (fun i => ((if i = 0 then Txid.treasuryToChecking
                  else Txid.vendorPayment (i - 1)), (0 : Nat))),
      p = ((Txid.treasuryToChecking : Txid), (0 : Nat))
      ∨ ∃ k, p = ((Txid.vendorPayment k : Txid), (0 : Nat)) := by
    intro p hp
    rcases List.mem_map.1 hp with ⟨i, _, rfl⟩
    by_cases hi : i = 0
    · rw [if_pos hi]
      exact Or.inl rfl
    · rw [if_neg hi]
      exact Or.inr ⟨i - 1, rfl⟩
  have hPoNotInv : ∀ p ∈ Po, ∀ i : Nat,
      p ≠ ((Txid.invoice i : Txid), (0 : Nat)) := by
    intro p hp i heq
    have h2 := hPok p hp
    rw [heq] at h2
    exact h2
  have hPoNotT2c : ∀ p ∈ Po, p ≠ ((Txid.treasuryToChecking : Txid), (0 : Nat)) := by
    intro p hp heq
    have h2 := hPok p hp
    rw [heq] at h2
    have h3 : (0 : Nat) = 1 := h2
    exact absurd h3 (by decide)
  have hPoNotVp : ∀ p ∈ Po, ∀ k : Nat,
      p ≠ ((Txid.vendorPayment k : Txid), (0 : Nat)) := by
    intro p hp k heq
    have h2 := hPok p hp
    rw [heq] at h2
    exact h2
  have hPoNotExt : ∀ p ∈ Po, ∀ i : Nat,
      p ≠ ((Txid.externalSource i : Txid), (0 : Nat)) := by
    intro p hp i heq
    have h2 := hPok p hp
    rw [heq] at h2
    exact h2
  rw [List.nodup_append]
  refine ⟨?_, ?_, ?_⟩
  · rw [List.nodup_append]
    refine ⟨hPc, ?_, ?_⟩
    · rw [List.nodup_cons]
      constructor
      · intro hqV
        have hq1 := hVinv q hqV
        rcases hq with ⟨p2, i2, hqc⟩ | hqc <;> rcases hq1 with hq2 | ⟨k, hq2⟩ <;>
          rw [hq2] at hqc <;> simp at hqc
      · exact vendor_pairs_nodup 20
    · intro p hpPc hpqV
      rcases hPcinv p hpPc with ⟨i, rfl⟩
      rcases List.mem_cons.1 hpqV with h | h
      · rcases hq with ⟨p2, i2, hqc⟩ | hqc <;> rw [← h] at hqc <;> simp at hqc
      · rcases hVinv _ h with h2 | ⟨k, h2⟩ <;> simp at h2
  · rw [List.nodup_append]
    refine ⟨hPo, by decide, ?_⟩
    intro p hpPo hpE
    have hpE2 : p = ((Txid.externalSource 0 : Txid), (0 : Nat))
        ∨ p = ((Txid.externalSource 1 : Txid), (0 : Nat)) := by
      simpa using hpE
    rcases hpE2 with rfl | rfl
    · exact hPoNotExt _ hpPo 0 rfl
    · exact hPoNotExt _ hpPo 1 rfl
  · intro p hpA hpB
    have hpB2 : p ∈ Po ∨ (p = ((Txid.externalSource 0 : Txid), (0 : Nat))
        ∨ p = ((Txid.externalSource 1 : Txid), (0 : Nat))) := by
      rcases List.mem_append.1 hpB with h | h
      · exact Or.inl h
      · exact Or.inr (by simpa using h)
    rcases List.mem_append.1 hpA with hA | hA
    · rcases hPcinv p hA with ⟨i, rfl⟩
      rcases hpB2 with hPoMem | hE | hE
      · exact hPoNotInv _ hPoMem i rfl
      · simp at hE
      · simp at hE
    · rcases List.mem_cons.1 hA with rfl | hV
      · rcases hpB2 with hPoMem | hE | hE
        · exact hPoq p hPoMem rfl
        · rcases hq with ⟨p2, i2, hqc⟩ | hqc <;> rw [hE] at hqc <;> simp at hqc
        · rcases hq with ⟨p2, i2, hqc⟩ | hqc <;> rw [hE] at hqc <;> simp at hqc
      · rcases hpB2 with hPoMem | hE | hE
        · rcases hVinv _ hV with h2 | ⟨k, h2⟩
          · exact hPoNotT2c _ hPoMem h2
          · exact hPoNotVp _ hPoMem k h2
        · rcases hVinv _ hV with h2 | ⟨k, h2⟩ <;> rw [hE] at h2 <;> simp at h2
        · rcases hVinv _ hV with h2 | ⟨k, h2⟩ <;> rw [hE] at h2 <;> simp at h2

/-- Claim C1: across the whole final transaction log of a run — all five
phases, any draw streams, hence any seed and date range — no (txid, output
index) pair appears as an input of more than one transaction: the
concatenated input list of the sorted log is pairwise distinct. -/
theorem claim_C1 (o : Oracle) :
    ((allTransactionsSorted o).flatMap Tx.inputs).Nodup := by
  have hperm : ((allTransactionsSorted o).flatMap Tx.inputs).Perm
      (spentPairs (runAll o).transactions) := by
    unfold allTransactionsSorted spentPairs
    exact (stableSort_perm heightLe _).flatMap_right Tx.inputs
  refine hperm.symm.nodup ?_
  obtain ⟨hPcNodup, hPcinv⟩ := consGen_spent_facts o
  have hB0 : (invoiceGen o initState).utxosB = [] :=
    (invoiceGen_utxosB o initState).trans rfl
  obtain ⟨hBnd, hBcons⟩ := consGen_uB_facts o (invoiceGen o initState) hB0
  have hC1 : (consolidationGen o (invoiceGen o initState)).utxosC = [] := by
    rw [consolidationGen_utxosC, invoiceGen_utxosC]
    rfl
  obtain ⟨q, hQdec, hqs, hqB⟩ :=
    checkingGen_spent o (consolidationGen o (invoiceGen o initState)) hC1 hBcons
  have hS2nd : ((checkingGen o
      (consolidationGen o (invoiceGen o initState))).utxosB.map uPair).Nodup := by
    rw [checkingGen_utxosB]
    exact (transferStep_uB_facts _ _ _ hBnd hBcons).1
  have hS2ok : ∀ u ∈ (checkingGen o
      (consolidationGen o (invoiceGen o initState))).utxosB, pairOk 0 (uPair u) := by
    rw [checkingGen_utxosB]
    exact (transferStep_uB_facts _ _ _ hBnd hBcons).2
  obtain ⟨Po, hPodec, hPoNodup, hPok, hPoOrigin⟩ :=
    specialGen_spent o (checkingGen o (consolidationGen o (invoiceGen o initState)))
      hS2nd hS2ok
  have hPoq : ∀ p ∈ Po, p.1 ≠ q.1 := by
    intro p hp heq
    rcases hPoOrigin p hp with hmem | ⟨k, hk⟩
    · rcases List.mem_map.1 hmem with ⟨u, hu, hut⟩
      exact hqB u hu (hut.trans heq)
    · have h3 := hk.symm.trans heq
      rcases hqs with ⟨p2, i2, hqc⟩ | hqc
      · have h4 := h3.trans hqc
        injection h4
      · have h4 := h3.trans hqc
        injection h4
  have hrw : spentPairs (runAll o).transactions
      = ((spentPairs (consolidationGen o (invoiceGen o initState)).transactions
          ++ (q :: (List.range 20).map
              fun i => ((if i = 0 then Txid.treasuryToChecking
                          else Txid.vendorPayment (i - 1)), (0 : Nat))))
        ++ (Po ++ [((Txid.externalSource 0 : Txid), (0 : Nat)),
                   ((Txid.externalSource 1 : Txid), (0 : Nat))])) := by
    rw [runAll_eq, hPodec, hQdec]
  rw [hrw]
  exact spent_assemble _ Po q hPcNodup hPcinv hqs hPoNodup hPok hPoq
